import Mathlib

/-!
# Verification of the Pulse Habit Tracker streak / period-filter core

This file gives a shallow embedding of the streak computation, task period
filtering, month shifting and goal scaling code of `src/habittracker.py`
(and the older revision in `src/pages/habittracker.py`), together with
proofs of the specification claims about them.

Python `datetime.date` objects are modelled by a `Date` structure holding
year/month/day as integers, with the proleptic Gregorian calendar rules
(`isLeap`, `daysInMonth`) exactly as `datetime` implements them, and with
`toOrd` mirroring `date.toordinal()`.  Python functions that can raise
(`ValueError` from `strptime`/`date(...)`, `OverflowError` from stepping
below `date.min`) are modelled as `Option`-valued functions, `none`
standing for the raised exception.  Backward walks (`d -= timedelta(1)`)
are modelled with an explicit fuel equal to the number of days between the
start date and `date.min`: Python raises `OverflowError` exactly when the
walk would need more steps than that, which is the fuel-exhaustion case.
-/

namespace Pulse

/-- A calendar date as stored by Python `datetime.date`: year, month, day.
Fields are unconstrained integers; `Date.Valid` states the calendar
constraints and `mkDate` models the range-checked CPython constructor. -/
structure Date where
  year : Int
  month : Int
  day : Int
deriving DecidableEq, Repr

/-- Gregorian leap-year rule, as in Python `calendar.isleap`. -/
def isLeap (y : Int) : Bool :=
  y % 4 == 0 && (y % 100 != 0 || y % 400 == 0)

/-- Number of days of month `m` of year `y` (`calendar.monthrange(y, m)[1]`). -/
def daysInMonth (y m : Int) : Int :=
  if m = 2 then (if isLeap y then 29 else 28)
  else if m = 4 ∨ m = 6 ∨ m = 9 ∨ m = 11 then 30
  else 31

/-- Cumulative day counts before month `m` in a non-leap year. -/
def cumDays (m : Int) : Int :=
  if m ≤ 1 then 0
  else if m = 2 then 31
  else if m = 3 then 59
  else if m = 4 then 90
  else if m = 5 then 120
  else if m = 6 then 151
  else if m = 7 then 181
  else if m = 8 then 212
  else if m = 9 then 243
  else if m = 10 then 273
  else if m = 11 then 304
  else 334

/-- Days before month `m` of year `y` (leap-adjusted). -/
def daysBeforeMonth (y m : Int) : Int :=
  cumDays m + (if 3 ≤ m ∧ isLeap y then 1 else 0)

/-- Days contributed by all years before `y` (so `yearOffset 1 = 0`). -/
def yearOffset (y : Int) : Int :=
  365 * (y - 1) + (y - 1) / 4 - (y - 1) / 100 + (y - 1) / 400

/-- Python `date.toordinal()`: day 1 is 0001-01-01. -/
def toOrd (d : Date) : Int :=
  yearOffset d.year + daysBeforeMonth d.year d.month + d.day

/-- Calendar well-formedness of a `Date` value (month and day in range). -/
def Date.Valid (d : Date) : Prop :=
  1 ≤ d.month ∧ d.month ≤ 12 ∧ 1 ≤ d.day ∧ d.day ≤ daysInMonth d.year d.month

instance (d : Date) : Decidable d.Valid := by
  unfold Date.Valid; infer_instance

/-- A date representable by CPython `datetime.date`: valid and with year in
`MINYEAR..MAXYEAR = 1..9999`. -/
def Date.InRange (d : Date) : Prop :=
  d.Valid ∧ 1 ≤ d.year ∧ d.year ≤ 9999

instance (d : Date) : Decidable d.InRange := by
  unfold Date.InRange; infer_instance

/-- The bounds-checked CPython `datetime.date(y, m, d)` constructor:
raises `ValueError` (here: `none`) outside the supported ranges. -/
def mkDate (y m d : Int) : Option Date :=
  if 1 ≤ y ∧ y ≤ 9999 ∧ 1 ≤ m ∧ m ≤ 12 ∧ 1 ≤ d ∧ d ≤ daysInMonth y m
  then some ⟨y, m, d⟩ else none

/-- `d + timedelta(days=1)` on the year/month/day representation. -/
def succDay (d : Date) : Date :=
  if d.day < daysInMonth d.year d.month then ⟨d.year, d.month, d.day + 1⟩
  else if d.month < 12 then ⟨d.year, d.month + 1, 1⟩
  else ⟨d.year + 1, 1, 1⟩

/-- `d - timedelta(days=1)` on the year/month/day representation. -/
def predDay (d : Date) : Date :=
  if 1 < d.day then ⟨d.year, d.month, d.day - 1⟩
  else if 1 < d.month then ⟨d.year, d.month - 1, daysInMonth d.year (d.month - 1)⟩
  else ⟨d.year - 1, 12, 31⟩

/-- `d - timedelta(days=n)`. -/
def predIter : Nat → Date → Date
  | 0, d => d
  | n + 1, d => predIter n (predDay d)

/-- `d + timedelta(days=n)`. -/
def succIter : Nat → Date → Date
  | 0, d => d
  | n + 1, d => succIter n (succDay d)

/-- Python `date` comparison `a <= b`: lexicographic on (year, month, day). -/
def dateLe (a b : Date) : Prop :=
  a.year < b.year ∨ (a.year = b.year ∧
    (a.month < b.month ∨ (a.month = b.month ∧ a.day ≤ b.day)))

instance (a b : Date) : Decidable (dateLe a b) := by
  unfold dateLe; infer_instance

/-- Python `date` comparison `a < b`: lexicographic on (year, month, day). -/
def dateLt (a b : Date) : Prop :=
  a.year < b.year ∨ (a.year = b.year ∧
    (a.month < b.month ∨ (a.month = b.month ∧ a.day < b.day)))

instance (a b : Date) : Decidable (dateLt a b) := by
  unfold dateLt; infer_instance

/-- The decimal digit character for `n % 10`. -/
def digitChar (n : Int) : Char :=
  Char.ofNat (48 + (n % 10).toNat)

/-- `d.strftime("%Y-%m-%d")`: zero-padded 4-2-2 decimal rendering. -/
def dateToString (d : Date) : String :=
  String.mk [digitChar (d.year / 1000), digitChar (d.year / 100),
    digitChar (d.year / 10), digitChar d.year, '-',
    digitChar (d.month / 10), digitChar d.month, '-',
    digitChar (d.day / 10), digitChar d.day]

/-- Numeric value of a decimal digit character. -/
def digitVal (c : Char) : Int :=
  (c.toNat : Int) - 48

/-- Whether a character is a decimal digit. -/
def isDigitChar (c : Char) : Bool :=
  48 ≤ c.toNat && c.toNat ≤ 57

/-- `datetime.strptime(s, "%Y-%m-%d")` on the canonical zero-padded form:
ten characters `YYYY-MM-DD`, validated ranges (year ≥ 1 as `datetime`
requires, month 1..12, day within the month); `none` models the raised
`ValueError`. -/
def parseDateChars (cs : List Char) : Option Date :=
  match cs with
  | [y1, y2, y3, y4, h1, m1, m2, h2, d1, d2] =>
    if h1 = '-' ∧ h2 = '-' ∧ isDigitChar y1 ∧ isDigitChar y2 ∧ isDigitChar y3 ∧
        isDigitChar y4 ∧ isDigitChar m1 ∧ isDigitChar m2 ∧ isDigitChar d1 ∧
        isDigitChar d2 then
      let y := 1000 * digitVal y1 + 100 * digitVal y2 + 10 * digitVal y3 + digitVal y4
      let m := 10 * digitVal m1 + digitVal m2
      let dd := 10 * digitVal d1 + digitVal d2
      if 1 ≤ y ∧ 1 ≤ m ∧ m ≤ 12 ∧ 1 ≤ dd ∧ dd ≤ daysInMonth y m
      then some ⟨y, m, dd⟩ else none
    else none
  | _ => none

/-- String-level wrapper for `parseDateChars`. -/
def parseDate (s : String) : Option Date :=
  parseDateChars s.data

/-- Lookup in a habit outcome log (a Python dict rendered as an association
list with unique keys): `habit_data.get(k)` / `habit_data[k]`. -/
def lookupLog (log : List (String × String)) (k : String) : Option String :=
  match log with
  | [] => none
  | (k1, v) :: rest => if k1 = k then some v else lookupLog rest k

/-- The log marks day `d` as a success: `habit_data[d.strftime("%Y-%m-%d")]
== "succeeded"`. -/
def succeededOn (log : List (String × String)) (d : Date) : Prop :=
  lookupLog log (dateToString d) = some "succeeded"

instance (log : List (String × String)) (d : Date) :
    Decidable (succeededOn log d) := by
  unfold succeededOn; infer_instance

/-- The backward `while True` walk of `compute_current_streak`
(src/habittracker.py lines 263-269): starting at `d`, count days whose log
entry is `"succeeded"`, stepping back one day at a time, and stop at the
first day that is absent or not `"succeeded"`.  The fuel is the number of
days from `d` back to `date.min = 0001-01-01`; exhausting it is exactly
the `OverflowError` CPython raises when `d -= timedelta(days=1)` would
leave the supported range, modelled as `none`. -/
def streakWalkFuel (log : List (String × String)) : Nat → Date → Option Nat
  | 0, _ => none
  | fuel + 1, d =>
    if lookupLog log (dateToString d) = some "succeeded" then
      match streakWalkFuel log fuel (predDay d) with
      | none => none
      | some n => some (n + 1)
    else some 0

/-- The start day of the current-streak walk: `today`, or `today - 1 day`
when `today` is absent from the log (src/habittracker.py lines 260-262). -/
def streakStart (log : List (String × String)) (today : Date) : Date :=
  if (lookupLog log (dateToString today)).isSome then today else predDay today

/-- `compute_current_streak(habit_data, today)` of src/habittracker.py
(lines 258-270).  `none` models the `OverflowError` raised when the walk
steps below `date.min` (which for `today` absent from the log can already
happen at the initial `d -= timedelta(days=1)`). -/
def compute_current_streak (log : List (String × String)) (today : Date) :
    Option Nat :=
  if (lookupLog log (dateToString today)).isSome then
    streakWalkFuel log (toOrd today).toNat today
  else
    streakWalkFuel log (toOrd today - 1).toNat (predDay today)

/-- The `while True` loop of `compute_current_streak` in
src/pages/habittracker.py (lines 94-124): the day equal to `today` is
treated specially (succeeded counts, any other mark breaks, unmarked is
skipped without breaking), past days continue the count only when marked
`"succeeded"`.  Fuel as in `streakWalkFuel`. -/
def pagesWalkFuel (log : List (String × String)) (today : Date) :
    Nat → Date → Nat → Option Nat
  | 0, _, _ => none
  | fuel + 1, d, streak =>
    if d = today then
      match lookupLog log (dateToString d) with
      | some v =>
        if v = "succeeded" then pagesWalkFuel log today fuel (predDay d) (streak + 1)
        else some streak
      | none => pagesWalkFuel log today fuel (predDay d) streak
    else
      if lookupLog log (dateToString d) = some "succeeded" then
        pagesWalkFuel log today fuel (predDay d) (streak + 1)
      else some streak

/-- `compute_current_streak(habit_data, today)` of src/pages/habittracker.py
(lines 90-124), the older revision. -/
def pages_compute_current_streak (log : List (String × String))
    (today : Date) : Option Nat :=
  pagesWalkFuel log today (toOrd today).toNat today 0

/-- The forward scan of `compute_longest_streak`
(src/habittracker.py lines 281-292): from the start day for
`fuel = today - start + 1` days, keep a running count of consecutive
`"succeeded"` days and the maximum seen; the loop exit returns
`max(longest, current)`.  Each source iteration ends with
`d += datetime.timedelta(days=1)`, and `date.__add__` raises
`OverflowError` unless the resulting ordinal stays within `date`'s range
`0 < ord <= 3652059` (3652059 = `date.max.toordinal()`, i.e. 9999-12-31),
so the scan raises (`none`) as soon as it processes a day whose successor
falls outside that range; since the raise discards the iteration's
counter updates, the range check is modelled at the head of the
iteration. -/
def scanFuel (log : List (String × String)) : Nat → Date → Nat → Nat →
    Option Nat
  | 0, _, current, longest => some (max longest current)
  | fuel + 1, d, current, longest =>
    if 0 < toOrd d + 1 ∧ toOrd d + 1 ≤ 3652059 then
      if lookupLog log (dateToString d) = some "succeeded" then
        scanFuel log fuel (succDay d) (current + 1) longest
      else
        scanFuel log fuel (succDay d) 0 (max longest current)
    else none

/-- The list-comprehension key parse of `compute_longest_streak`
(src/habittracker.py lines 273-277): `strptime` every key of the log; a
single malformed key raises `ValueError` (`none`). -/
def parseKeys : List (String × String) → Option (List Date)
  | [] => some []
  | (k, _) :: rest =>
    match parseDate k, parseKeys rest with
    | some d, some ds => some (d :: ds)
    | _, _ => none

/-- Python `min` over a nonempty list of dates. -/
def minDate (e : Date) (es : List Date) : Date :=
  es.foldl (fun a b => if dateLt b a then b else a) e

/-- `compute_longest_streak(habit_data, today)` of src/habittracker.py
(lines 272-292; the identical text is at lines 137-154 of
src/pages/habittracker.py): parse all keys (raising on a malformed one),
keep the dates ≤ `today`, return 0 when none qualify, and otherwise scan
from the earliest qualifying date through `today`.  The scan fuel
`today - start + 1` is the exact iteration count of the source
`while d <= today` loop; the scan itself raises `OverflowError` (`none`)
when its trailing day-increment would pass `date.max` = 9999-12-31, which
happens exactly when a qualifying entry exists and the loop reaches
9999-12-31. -/
def compute_longest_streak (log : List (String × String)) (today : Date) :
    Option Nat :=
  match parseKeys log with
  | none => none
  | some ds =>
    match ds.filter (fun e => decide (dateLe e today)) with
    | [] => some 0
    | e :: es =>
      scanFuel log (toOrd today + 1 - toOrd (minDate e es)).toNat
        (minDate e es) 0 0

/-- The `data_to_store` dict written by `update_streaks_for_habit`
(src/habittracker.py lines 301-309). -/
structure StreakRecord where
  current : Nat
  longest : Nat
  last_update : String
deriving DecidableEq, Repr

/-- `update_streaks_for_habit` (src/habittracker.py lines 301-309) without
the session-state/database writes: both streaks are recomputed and stored
with `last_update = today`; an exception in either computation propagates. -/
def update_streaks_for_habit (log : List (String × String)) (today : Date) :
    Option StreakRecord :=
  match compute_current_streak log today, compute_longest_streak log today with
  | some c, some l => some ⟨c, l, dateToString today⟩
  | _, _ => none

/-- A to-do item as used by `filter_tasks_by_period`: the fields
`task.get("completed")`, `task.get("completed_at")` and
`task["timestamp"]`. -/
structure Task where
  completed : Bool
  completed_at : Option String
  timestamp : String
deriving DecidableEq, Repr

/-- Python truthiness of `task.get("completed_at")`: present and nonempty. -/
def truthyStr : Option String → Bool
  | none => false
  | some s => !(s = "")

/-- `datetime.datetime.fromisoformat(s).date()`: the date part (the first
ten characters) of an ISO timestamp.  The source only ever feeds it
`datetime.now().isoformat()` strings, whose first ten characters are the
canonical `YYYY-MM-DD` date; malformed input raises (`none`). -/
def fromisoDate (s : String) : Option Date :=
  parseDateChars (s.data.take 10)

/-- Python `date.weekday()`: 0 for Monday, using the ordinal of day
0001-01-01 (a Monday) as anchor. -/
def weekday (d : Date) : Nat :=
  ((toOrd d - 1) % 7).toNat

/-- The `period == "Daily"` branch of `filter_tasks_by_period`
(src/habittracker.py lines 378-385): keep only completed tasks (with a
truthy `completed_at`) whose completion date equals `today`; incomplete
tasks are never inspected.  A malformed `completed_at` raises. -/
def dailyFilter (today : Date) : List Task → Option (List Task)
  | [] => some []
  | t :: rest =>
    if t.completed && truthyStr t.completed_at then
      match t.completed_at with
      | some ca =>
        match fromisoDate ca with
        | none => none
        | some comp =>
          match dailyFilter today rest with
          | none => none
          | some res => some (if comp = today then t :: res else res)
      | none => none
    else dailyFilter today rest

/-- The shared Weekly/Monthly loop of `filter_tasks_by_period`
(src/habittracker.py lines 396-406): every task's `timestamp` is parsed
(raising on malformed input); a completed task with truthy `completed_at`
is kept when its completion date is within `[start, endD]`, an incomplete
task when its creation date is. -/
def wmFilter (start endD : Date) : List Task → Option (List Task)
  | [] => some []
  | t :: rest =>
    match fromisoDate t.timestamp with
    | none => none
    | some created =>
      if t.completed && truthyStr t.completed_at then
        match t.completed_at with
        | some ca =>
          match fromisoDate ca with
          | none => none
          | some comp =>
            match wmFilter start endD rest with
            | none => none
            | some res =>
              some (if dateLe start comp ∧ dateLe comp endD then t :: res else res)
        | none => none
      else
        match wmFilter start endD rest with
        | none => none
        | some res =>
          some (if !t.completed ∧ dateLe start created ∧ dateLe created endD
            then t :: res else res)

/-- `filter_tasks_by_period(tasks, period, today)` of src/habittracker.py
(lines 377-406): `"Daily"` keeps only tasks completed today, `"Weekly"`
uses the Monday-to-Sunday week containing `today`, `"Monthly"` the
calendar month containing `today`, and any other period (in particular
`"Yearly"`) returns the whole task list unfiltered. -/
def filter_tasks_by_period (tasks : List Task) (period : String)
    (today : Date) : Option (List Task) :=
  if period = "Daily" then dailyFilter today tasks
  else if period = "Weekly" then
    wmFilter (predIter (weekday today) today)
      (succIter 6 (predIter (weekday today) today)) tasks
  else if period = "Monthly" then
    wmFilter ⟨today.year, today.month, 1⟩
      ⟨today.year, today.month, daysInMonth today.year today.month⟩ tasks
  else some tasks

/-- The `while month > 12` normalization loop of `shift_month`
(src/habittracker.py lines 250-252). -/
def normMonthUp (y m : Int) : Int × Int :=
  if 12 < m then normMonthUp (y + 1) (m - 12) else (y, m)
termination_by (m - 12).toNat
decreasing_by omega

/-- The `while month < 1` normalization loop of `shift_month`
(src/habittracker.py lines 253-255). -/
def normMonthDown (y m : Int) : Int × Int :=
  if m < 1 then normMonthDown (y - 1) (m + 12) else (y, m)
termination_by (1 - m).toNat
decreasing_by omega

/-- `shift_month(date_obj, delta)` of src/habittracker.py (lines 247-256;
identical at lines 78-87 of src/pages/habittracker.py): add `delta` to the
month, normalize by whole years in both directions, and build the first
day of the resulting month with the range-checked `datetime.date`
constructor (`none` models its `ValueError` for years outside 1..9999). -/
def shift_month (d : Date) (delta : Int) : Option Date :=
  match normMonthDown (normMonthUp d.year (d.month + delta)).1
      (normMonthUp d.year (d.month + delta)).2 with
  | (y, m) => mkDate y m 1

/-- Round-to-nearest integer with ties to even: the rounding rule of
IEEE-754 binary64 arithmetic, applied to the exact rational value of an
operation's result scaled into the significand range. -/
def rneRat (x : Rat) : Int :=
  if x - (⌊x⌋ : Rat) < 1 / 2 then ⌊x⌋
  else if 1 / 2 < x - (⌊x⌋ : Rat) then ⌊x⌋ + 1
  else if ⌊x⌋ % 2 = 0 then ⌊x⌋ else ⌊x⌋ + 1

/-- The binary64 scale of a positive rational: the exponent `e` with
`2 ^ 52 ≤ q / 2 ^ e < 2 ^ 53` for normal values, clamped below at the
subnormal scale `-1074`. -/
def floatExp (q : Rat) : Int :=
  max (Int.log 2 q - 52) (-1074)

/-- The correctly rounded binary64 value of a positive rational: round
the scaled significand to the nearest integer (ties to even) and scale
back. -/
def rndVal (q : Rat) : Rat :=
  (rneRat (q / 2 ^ floatExp q) : Rat) * 2 ^ floatExp q

/-- Correct rounding of a positive rational to IEEE-754 binary64
(round-to-nearest, ties-to-even); results reaching `2 ^ 1024` overflow to
infinity (`none`). -/
def roundFloatPos (q : Rat) : Option Rat :=
  if rndVal q < (2 : Rat) ^ (1024 : Nat) then some (rndVal q) else none

/-- Rounding any rational to binary64: IEEE-754 rounding is symmetric
under negation, and zero is exact.  `none` is an infinite result. -/
def roundFloat (q : Rat) : Option Rat :=
  if q = 0 then some 0
  else if 0 < q then roundFloatPos q
  else Option.map (fun v => -v) (roundFloatPos (-q))

/-- The derived monthly goal of the monthly analytics
(src/habittracker.py lines 847-849): `int(weekly_goal / 7 * num_days)`
under CPython float semantics.  `weekly_goal / 7` is `int.__truediv__`,
the correctly rounded binary64 quotient of the two exact integers
(raising `OverflowError` when it exceeds the float range);
`float.__mul__` with the int `num_days` converts `num_days` exactly and
rounds the exact product to binary64; `int(...)` truncates a finite
float toward zero and raises `OverflowError` on an infinity (`none`). -/
def monthly_goal (g : Int) (num_days : Int) : Option Int :=
  match roundFloat ((g : Rat) / 7) with
  | none => none
  | some x =>
    match roundFloat (x * (num_days : Rat)) with
    | none => none
    | some y => some (if y < 0 then ⌈y⌉ else ⌊y⌋)

end Pulse

namespace Pulse

/-! ## Calendar arithmetic lemmas -/

theorem isLeap_iff (y : Int) :
    isLeap y = true ↔ (y % 4 = 0 ∧ (y % 100 ≠ 0 ∨ y % 400 = 0)) := by
  unfold isLeap
  simp [Bool.and_eq_true, Bool.or_eq_true, beq_iff_eq, bne_iff_ne]

theorem daysInMonth_bounds (y m : Int) (h1 : 1 ≤ m) (h2 : m ≤ 12) :
    28 ≤ daysInMonth y m ∧ daysInMonth y m ≤ 31 := by
  unfold daysInMonth
  split_ifs <;> omega

theorem yearOffset_succ (y : Int) :
    yearOffset (y + 1) = yearOffset y + 365 + (if isLeap y then 1 else 0) := by
  unfold yearOffset
  split_ifs with h
  · rw [isLeap_iff] at h
    omega
  · rw [isLeap_iff] at h
    push_neg at h
    omega

theorem yearOffset_add_le (y : Int) (k : Nat) :
    yearOffset y + 365 * k ≤ yearOffset (y + k) := by
  induction k with
  | zero => simp
  | succ k ih =>
    have hs := yearOffset_succ (y + k)
    have ha : y + ((k : Int) + 1) = (y + k) + 1 := by ring
    push_cast
    rw [ha]
    split_ifs at hs <;> omega

theorem yearOffset_mono {a b : Int} (h : a ≤ b) :
    yearOffset a ≤ yearOffset b := by
  have hk := yearOffset_add_le a (b - a).toNat
  have h1 : ((b - a).toNat : Int) = b - a := Int.toNat_of_nonneg (by omega)
  rw [h1] at hk
  have h2 : a + (b - a) = b := by ring
  rw [h2] at hk
  omega

theorem daysBeforeMonth_succ (y m : Int) (h1 : 1 ≤ m) (h2 : m ≤ 11) :
    daysBeforeMonth y (m + 1) = daysBeforeMonth y m + daysInMonth y m := by
  unfold daysBeforeMonth cumDays daysInMonth
  cases hb : isLeap y <;> simp [hb] <;> interval_cases m <;> norm_num

theorem daysBeforeMonth_day_bounds (y m day : Int) (h1 : 1 ≤ m) (h2 : m ≤ 12)
    (h3 : 1 ≤ day) (h4 : day ≤ daysInMonth y m) :
    1 ≤ daysBeforeMonth y m + day ∧
      daysBeforeMonth y m + day ≤ 365 + (if isLeap y then 1 else 0) := by
  unfold daysBeforeMonth daysInMonth at *
  cases hb : isLeap y <;> simp [hb] at * <;> unfold cumDays <;>
    interval_cases m <;> omega

theorem within_year_lt (y m1 d1 m2 d2 : Int) (h1 : 1 ≤ m1) (h2 : m1 ≤ 12)
    (hd1 : d1 ≤ daysInMonth y m1) (h3 : 1 ≤ m2) (h4 : m2 ≤ 12) (hd2 : 1 ≤ d2)
    (hlex : m1 < m2 ∨ (m1 = m2 ∧ d1 < d2)) :
    daysBeforeMonth y m1 + d1 < daysBeforeMonth y m2 + d2 := by
  unfold daysBeforeMonth daysInMonth at *
  cases hb : isLeap y <;> simp [hb] at * <;> unfold cumDays <;>
    interval_cases m1 <;> interval_cases m2 <;> omega

end Pulse

namespace Pulse

theorem toOrd_succDay (d : Date) (h : d.Valid) :
    toOrd (succDay d) = toOrd d + 1 := by
  obtain ⟨y, m, day⟩ := d
  obtain ⟨h1, h2, h3, h4⟩ := h
  dsimp only at h1 h2 h3 h4
  unfold succDay
  dsimp only
  split_ifs with hc1 hc2
  · unfold toOrd
    dsimp only
    ring
  · unfold toOrd
    dsimp only
    rw [daysBeforeMonth_succ y m h1 (by omega)]
    omega
  · have hm : m = 12 := by omega
    subst hm
    have hdim : daysInMonth y 12 = 31 := by unfold daysInMonth; norm_num
    have hd : day = 31 := by omega
    subst hd
    unfold toOrd
    dsimp only
    rw [yearOffset_succ]
    unfold daysBeforeMonth cumDays
    cases hb : isLeap y <;> simp [hb] <;> omega

theorem succDay_valid (d : Date) (h : d.Valid) : (succDay d).Valid := by
  obtain ⟨y, m, day⟩ := d
  obtain ⟨h1, h2, h3, h4⟩ := h
  dsimp only at h1 h2 h3 h4
  have hb1 := daysInMonth_bounds y (m + 1)
  have hb2 := daysInMonth_bounds (y + 1) 1 (by norm_num) (by norm_num)
  unfold succDay
  dsimp only
  split_ifs with hc1 hc2 <;> refine ⟨?_, ?_, ?_, ?_⟩ <;> dsimp only <;>
    first
      | omega
      | (exact le_trans (by omega) (hb1 (by omega) (by omega)).1.le)
      | (exact le_trans (by omega) hb2.1.le)

theorem predDay_valid (d : Date) (h : d.Valid) : (predDay d).Valid := by
  obtain ⟨y, m, day⟩ := d
  obtain ⟨h1, h2, h3, h4⟩ := h
  dsimp only at h1 h2 h3 h4
  have hb1 := daysInMonth_bounds y (m - 1)
  have hdim : daysInMonth (y - 1) 12 = 31 := by unfold daysInMonth; norm_num
  unfold predDay
  dsimp only
  split_ifs with hc1 hc2 <;> refine ⟨?_, ?_, ?_, ?_⟩ <;> dsimp only <;>
    first
      | omega
      | (exact le_trans (by omega) (hb1 (by omega) (by omega)).1.le)
      | exact le_rfl

theorem succDay_predDay (d : Date) (h : d.Valid) : succDay (predDay d) = d := by
  obtain ⟨y, m, day⟩ := d
  obtain ⟨h1, h2, h3, h4⟩ := h
  dsimp only at h1 h2 h3 h4
  rcases lt_or_le 1 day with hc1 | hc1
  · have hpd : predDay ⟨y, m, day⟩ = ⟨y, m, day - 1⟩ := by
      unfold predDay
      dsimp only
      rw [if_pos hc1]
    rw [hpd]
    unfold succDay
    dsimp only
    have hcond : day - 1 < daysInMonth y m := by omega
    rw [if_pos hcond]
    simp only [Date.mk.injEq, true_and, and_true]
    omega
  · rcases lt_or_le 1 m with hc2 | hc2
    · have hn1 : ¬ 1 < day := by omega
      have hpd : predDay ⟨y, m, day⟩ = ⟨y, m - 1, daysInMonth y (m - 1)⟩ := by
        unfold predDay
        dsimp only
        rw [if_neg hn1, if_pos hc2]
      rw [hpd]
      unfold succDay
      dsimp only
      have hc3 : ¬ (daysInMonth y (m - 1) < daysInMonth y (m - 1)) := lt_irrefl _
      rw [if_neg hc3]
      have hc4 : m - 1 < 12 := by omega
      rw [if_pos hc4]
      simp only [Date.mk.injEq, true_and, and_true]
      omega
    · have hn1 : ¬ 1 < day := by omega
      have hn2 : ¬ 1 < m := by omega
      have hpd : predDay ⟨y, m, day⟩ = ⟨y - 1, 12, 31⟩ := by
        unfold predDay
        dsimp only
        rw [if_neg hn1, if_neg hn2]
      rw [hpd]
      unfold succDay
      dsimp only
      have hdim : daysInMonth (y - 1) 12 = 31 := by unfold daysInMonth; norm_num
      have hc5 : ¬ ((31 : Int) < daysInMonth (y - 1) 12) := by rw [hdim]; norm_num
      rw [if_neg hc5]
      have hc6 : ¬ ((12 : Int) < 12) := by norm_num
      rw [if_neg hc6]
      simp only [Date.mk.injEq, true_and, and_true]
      omega

theorem toOrd_predDay (d : Date) (h : d.Valid) :
    toOrd (predDay d) = toOrd d - 1 := by
  have hv := predDay_valid d h
  have hs := toOrd_succDay (predDay d) hv
  rw [succDay_predDay d h] at hs
  omega

theorem predIter_valid_ord (e : Date) (h : e.Valid) (i : Nat) :
    (predIter i e).Valid ∧ toOrd (predIter i e) = toOrd e - i := by
  induction i generalizing e with
  | zero => simpa using ⟨h, rfl⟩
  | succ i ih =>
    have hv := predDay_valid e h
    have ho := toOrd_predDay e h
    have := ih (predDay e) hv
    unfold predIter
    refine ⟨this.1, ?_⟩
    rw [this.2, ho]
    push_cast
    ring

theorem succIter_valid_ord (e : Date) (h : e.Valid) (i : Nat) :
    (succIter i e).Valid ∧ toOrd (succIter i e) = toOrd e + i := by
  induction i generalizing e with
  | zero => simpa using ⟨h, rfl⟩
  | succ i ih =>
    have hv := succDay_valid e h
    have ho := toOrd_succDay e h
    have := ih (succDay e) hv
    unfold succIter
    refine ⟨this.1, ?_⟩
    rw [this.2, ho]
    push_cast
    ring

theorem toOrd_lt_of_dateLt {a b : Date} (ha : a.Valid) (hb : b.Valid)
    (h : dateLt a b) : toOrd a < toOrd b := by
  obtain ⟨y1, m1, d1⟩ := a
  obtain ⟨y2, m2, d2⟩ := b
  obtain ⟨ha1, ha2, ha3, ha4⟩ := ha
  obtain ⟨hb1, hb2, hb3, hb4⟩ := hb
  simp only at *
  unfold dateLt at h
  simp only at h
  unfold toOrd
  simp only
  rcases h with h | ⟨hy, hmd⟩
  · have hub := (daysBeforeMonth_day_bounds y1 m1 d1 ha1 ha2 ha3 ha4).2
    have hlb := (daysBeforeMonth_day_bounds y2 m2 d2 hb1 hb2 hb3 hb4).1
    have hs := yearOffset_succ y1
    have hm : yearOffset (y1 + 1) ≤ yearOffset y2 := yearOffset_mono (by omega)
    split_ifs at hub hs <;> omega
  · subst hy
    have := within_year_lt y1 m1 d1 m2 d2 ha1 ha2 ha4 hb1 hb2 hb3 hmd
    omega

theorem dateLt_trichot (a b : Date) : dateLt a b ∨ a = b ∨ dateLt b a := by
  obtain ⟨y1, m1, d1⟩ := a
  obtain ⟨y2, m2, d2⟩ := b
  unfold dateLt
  simp only [Date.mk.injEq]
  omega

theorem dateLe_iff_lt_or_eq (a b : Date) : dateLe a b ↔ dateLt a b ∨ a = b := by
  obtain ⟨y1, m1, d1⟩ := a
  obtain ⟨y2, m2, d2⟩ := b
  unfold dateLe dateLt
  simp only [Date.mk.injEq]
  omega

theorem not_dateLe_iff (a b : Date) : ¬ dateLe a b ↔ dateLt b a := by
  obtain ⟨y1, m1, d1⟩ := a
  obtain ⟨y2, m2, d2⟩ := b
  unfold dateLe dateLt
  simp only
  omega

theorem dateLt_iff_ord {a b : Date} (ha : a.Valid) (hb : b.Valid) :
    dateLt a b ↔ toOrd a < toOrd b := by
  constructor
  · exact toOrd_lt_of_dateLt ha hb
  · intro h
    rcases dateLt_trichot a b with hl | he | hg
    · exact hl
    · subst he; omega
    · have := toOrd_lt_of_dateLt hb ha hg
      omega

theorem dateLe_iff_ord {a b : Date} (ha : a.Valid) (hb : b.Valid) :
    dateLe a b ↔ toOrd a ≤ toOrd b := by
  rw [dateLe_iff_lt_or_eq]
  constructor
  · rintro (h | h)
    · exact le_of_lt ((dateLt_iff_ord ha hb).mp h)
    · subst h; omega
  · intro h
    rcases eq_or_lt_of_le h with he | hl
    · right
      rcases dateLt_trichot a b with hx | hx | hx
      · exact absurd ((dateLt_iff_ord ha hb).mp hx) (by omega)
      · exact hx
      · exact absurd ((dateLt_iff_ord hb ha).mp hx) (by omega)
    · exact Or.inl ((dateLt_iff_ord ha hb).mpr hl)

theorem toOrd_inj {a b : Date} (ha : a.Valid) (hb : b.Valid)
    (h : toOrd a = toOrd b) : a = b := by
  rcases dateLt_trichot a b with hx | hx | hx
  · exact absurd (toOrd_lt_of_dateLt ha hb hx) (by omega)
  · exact hx
  · exact absurd (toOrd_lt_of_dateLt hb ha hx) (by omega)

theorem toOrd_ge_one (d : Date) (h : d.Valid) (hy : 1 ≤ d.year) :
    1 ≤ toOrd d := by
  obtain ⟨y, m, day⟩ := d
  obtain ⟨h1, h2, h3, h4⟩ := h
  simp only at *
  unfold toOrd
  simp only
  have hm : yearOffset 1 ≤ yearOffset y := yearOffset_mono (by omega)
  have hlb := (daysBeforeMonth_day_bounds y m day h1 h2 h3 h4).1
  have h0 : yearOffset 1 = 0 := by unfold yearOffset; norm_num
  omega

theorem toOrd_nonpos (d : Date) (h : d.Valid) (hy : d.year ≤ 0) :
    toOrd d ≤ 0 := by
  obtain ⟨y, m, day⟩ := d
  obtain ⟨h1, h2, h3, h4⟩ := h
  simp only at *
  unfold toOrd
  simp only
  have hub := (daysBeforeMonth_day_bounds y m day h1 h2 h3 h4).2
  have hs := yearOffset_succ y
  have hm : yearOffset (y + 1) ≤ yearOffset 1 := yearOffset_mono (by omega)
  have h0 : yearOffset 1 = 0 := by unfold yearOffset; norm_num
  split_ifs at hub hs <;> omega

theorem year_ge_one_of_ord (d : Date) (h : d.Valid) (h1 : 1 ≤ toOrd d) :
    1 ≤ d.year := by
  by_contra hc
  have := toOrd_nonpos d h (by omega)
  omega

theorem eq_zero_day_of_ord (d : Date) (h : d.Valid) (h0 : toOrd d = 0) :
    d = ⟨0, 12, 31⟩ := by
  have hy : d.year = 0 := by
    by_contra hc
    rcases lt_or_gt_of_ne hc with hlt | hgt
    · obtain ⟨y, m, day⟩ := d
      obtain ⟨h1, h2, h3, h4⟩ := h
      simp only at *
      unfold toOrd at h0
      simp only at h0
      have hub := (daysBeforeMonth_day_bounds y m day h1 h2 h3 h4).2
      have hs := yearOffset_succ y
      have hm : yearOffset (y + 1) ≤ yearOffset 0 := yearOffset_mono (by omega)
      have hz : yearOffset 0 = -366 := by unfold yearOffset; decide
      split_ifs at hub hs <;> omega
    · have := toOrd_ge_one d h (by omega)
      omega
  obtain ⟨y, m, day⟩ := d
  obtain ⟨h1, h2, h3, h4⟩ := h
  simp only at *
  subst hy
  unfold toOrd at h0
  simp only at h0
  have hz : yearOffset 0 = -366 := by unfold yearOffset; decide
  have hleap : isLeap 0 = true := by decide
  simp only [Date.mk.injEq, true_and]
  unfold daysBeforeMonth cumDays daysInMonth at *
  simp [hleap] at h0 h4
  interval_cases m <;> omega

end Pulse

namespace Pulse

/-! ## String formatting and parsing lemmas -/

theorem digitChar_toNat (n : Int) : (digitChar n).toNat = 48 + (n % 10).toNat := by
  unfold digitChar
  have h0 : 0 ≤ n % 10 := by omega
  have h9 : n % 10 ≤ 9 := by omega
  have h : (n % 10).toNat ≤ 9 := by omega
  interval_cases hv : (n % 10).toNat <;> decide

theorem digitVal_digitChar (n : Int) : digitVal (digitChar n) = n % 10 := by
  unfold digitVal
  rw [digitChar_toNat]
  omega

theorem isDigitChar_digitChar (n : Int) : isDigitChar (digitChar n) = true := by
  unfold isDigitChar
  rw [digitChar_toNat]
  simp only [Bool.and_eq_true, decide_eq_true_eq]
  omega

theorem parse_dateToString (d : Date) (h : d.Valid) (hy0 : 0 ≤ d.year)
    (hy9 : d.year ≤ 9999) :
    parseDate (dateToString d) = if 1 ≤ d.year then some d else none := by
  obtain ⟨y, m, day⟩ := d
  obtain ⟨h1, h2, h3, h4⟩ := h
  dsimp only at h1 h2 h3 h4 hy0 hy9
  have hdimb := daysInMonth_bounds y m h1 h2
  unfold parseDate dateToString
  show parseDateChars _ = _
  unfold parseDateChars
  simp only [digitVal_digitChar, isDigitChar_digitChar]
  have hcnd : True ∧ True ∧ True ∧ True ∧ True ∧ True ∧ True ∧ True ∧
      True ∧ True := by
    simp
  rw [if_pos hcnd]
  have hyv : 1000 * (y / 1000 % 10) + 100 * (y / 100 % 10) + 10 * (y / 10 % 10) +
      y % 10 = y := by omega
  have hmv : 10 * (m / 10 % 10) + m % 10 = m := by omega
  have hdv : 10 * (day / 10 % 10) + day % 10 = day := by omega
  rw [hyv, hmv, hdv]
  by_cases hc : 1 ≤ y
  · rw [if_pos ⟨hc, h1, h2, h3, h4⟩, if_pos hc]
  · rw [if_neg ?_, if_neg hc]
    intro hfull
    exact hc hfull.1

end Pulse

namespace Pulse

theorem parse_dateToString_inRange (d : Date) (h : d.InRange) :
    parseDate (dateToString d) = some d := by
  obtain ⟨hv, h1, h9⟩ := h
  rw [parse_dateToString d hv (by omega) h9, if_pos h1]

theorem isDigitChar_bounds {c : Char} (h : isDigitChar c = true) :
    0 ≤ digitVal c ∧ digitVal c ≤ 9 := by
  unfold isDigitChar at h
  unfold digitVal
  simp only [Bool.and_eq_true, decide_eq_true_eq] at h
  omega

theorem parseDate_inRange {k : String} {kd : Date}
    (h : parseDate k = some kd) : kd.InRange := by
  unfold parseDate parseDateChars at h
  split at h
  · dsimp only at h
    split_ifs at h with hd hr
    obtain ⟨hy, hm1, hm2, hdd1, hdd2⟩ := hr
    simp only [Option.some.injEq] at h
    subst h
    obtain ⟨-, -, hb1, hb2, hb3, hb4, hb5, hb6, hb7, hb8⟩ := hd
    have q1 := isDigitChar_bounds hb1
    have q2 := isDigitChar_bounds hb2
    have q3 := isDigitChar_bounds hb3
    have q4 := isDigitChar_bounds hb4
    refine ⟨⟨hm1, hm2, hdd1, hdd2⟩, hy, ?_⟩
    dsimp only
    omega
  · exact absurd h (by simp)

theorem de_of_parse_toString {k : String} {kd : Date} {d : Date}
    (hp : parseDate k = some kd) (hv : d.Valid) (h0 : 0 ≤ d.year)
    (h9 : d.year ≤ 9999) (he : dateToString d = k) : d = kd := by
  rw [← he, parse_dateToString d hv h0 h9] at hp
  split_ifs at hp
  exact (Option.some.injEq _ _).mp hp

theorem lookupLog_mem {log : List (String × String)} {k v : String}
    (h : lookupLog log k = some v) : (k, v) ∈ log := by
  induction log with
  | nil => simp [lookupLog] at h
  | cons p rest ih =>
    obtain ⟨k1, v1⟩ := p
    unfold lookupLog at h
    split_ifs at h with he
    · simp only [Option.some.injEq] at h
      subst he h
      exact List.mem_cons_self _ _
    · exact List.mem_cons_of_mem _ (ih h)

end Pulse

namespace Pulse

/-! ## Lemmas about the backward current-streak walk -/

theorem dateYear_le_of_ord_le {a b : Date} (ha : a.Valid) (hb : b.Valid)
    (h : toOrd a ≤ toOrd b) : a.year ≤ b.year := by
  have hle := (dateLe_iff_ord ha hb).mpr h
  unfold dateLe at hle
  omega

theorem streakWalkFuel_le {log : List (String × String)} :
    ∀ (fuel : ℕ) (d : Date) (n : ℕ),
      streakWalkFuel log fuel d = some n → n ≤ fuel := by
  intro fuel
  induction fuel with
  | zero =>
    intro d n h
    simp [streakWalkFuel] at h
  | succ fuel ih =>
    intro d n h
    unfold streakWalkFuel at h
    split_ifs at h with hs
    · cases hrec : streakWalkFuel log fuel (predDay d) with
      | none => rw [hrec] at h; simp at h
      | some m =>
        rw [hrec] at h
        simp only [Option.some.injEq] at h
        have := ih _ _ hrec
        omega
    · simp only [Option.some.injEq] at h
      omega

theorem streakWalk_spec {log : List (String × String)} :
    ∀ (fuel : ℕ) (d : Date) (n : ℕ), streakWalkFuel log fuel d = some n →
      (∀ i, i < n → succeededOn log (predIter i d)) ∧
        ¬ succeededOn log (predIter n d) := by
  intro fuel
  induction fuel with
  | zero =>
    intro d n h
    simp [streakWalkFuel] at h
  | succ fuel ih =>
    intro d n h
    unfold streakWalkFuel at h
    split_ifs at h with hs
    · cases hrec : streakWalkFuel log fuel (predDay d) with
      | none => rw [hrec] at h; simp at h
      | some m =>
        rw [hrec] at h
        simp only [Option.some.injEq] at h
        subst h
        obtain ⟨ih1, ih2⟩ := ih (predDay d) m hrec
        constructor
        · intro i hi
          cases i with
          | zero => exact hs
          | succ j => exact ih1 j (by omega)
        · exact ih2
    · simp only [Option.some.injEq] at h
      subst h
      exact ⟨by omega, hs⟩

theorem streakWalk_complete {log : List (String × String)} :
    ∀ (n fuel : ℕ) (d : Date), n < fuel →
      (∀ i, i < n → succeededOn log (predIter i d)) →
      ¬ succeededOn log (predIter n d) →
      streakWalkFuel log fuel d = some n := by
  intro n
  induction n with
  | zero =>
    intro fuel d hf h1 h2
    cases fuel with
    | zero => omega
    | succ fuel =>
      unfold streakWalkFuel
      have h2n : ¬ lookupLog log (dateToString d) = some "succeeded" := h2
      rw [if_neg h2n]
  | succ n ih =>
    intro fuel d hf h1 h2
    cases fuel with
    | zero => omega
    | succ fuel =>
      unfold streakWalkFuel
      have h1n : lookupLog log (dateToString d) = some "succeeded" :=
        h1 0 (by omega)
      rw [if_pos h1n]
      have hfn : n < fuel := by omega
      have hrec : streakWalkFuel log fuel (predDay d) = some n :=
        ih fuel (predDay d) hfn (fun i hi => h1 (i + 1) (by omega)) h2
      simp only [hrec]

theorem streakWalk_none {log : List (String × String)} :
    ∀ (fuel : ℕ) (d : Date), streakWalkFuel log fuel d = none →
      ∀ i, i < fuel → succeededOn log (predIter i d) := by
  intro fuel
  induction fuel with
  | zero =>
    intro d h i hi
    omega
  | succ fuel ih =>
    intro d h i hi
    by_cases hs : lookupLog log (dateToString d) = some "succeeded"
    · unfold streakWalkFuel at h
      rw [if_pos hs] at h
      cases hrec : streakWalkFuel log fuel (predDay d) with
      | none =>
        cases i with
        | zero => exact hs
        | succ j => exact ih (predDay d) hrec j (by omega)
      | some m => rw [hrec] at h; simp at h
    · unfold streakWalkFuel at h
      rw [if_neg hs] at h
      simp at h

/-- The older (pages) revision walk agrees with the newer walk below `today`:
once strictly in the past, both loops count `"succeeded"` days identically,
the pages version adding its accumulator. -/
theorem pagesWalk_eq_streakWalk (log : List (String × String)) (today : Date) :
    ∀ (fuel : ℕ) (d : Date) (streak : ℕ), d.Valid → toOrd d < toOrd today →
      pagesWalkFuel log today fuel d streak =
        (streakWalkFuel log fuel d).map (fun n => n + streak) := by
  intro fuel
  induction fuel with
  | zero =>
    intro d streak hv hlt
    simp [pagesWalkFuel, streakWalkFuel]
  | succ fuel ih =>
    intro d streak hv hlt
    have hne : d ≠ today := by
      intro he
      subst he
      omega
    unfold pagesWalkFuel streakWalkFuel
    rw [if_neg hne]
    by_cases hs : lookupLog log (dateToString d) = some "succeeded"
    · rw [if_pos hs, if_pos hs]
      have hv2 := predDay_valid d hv
      have ho2 := toOrd_predDay d hv
      have hlt2 : toOrd (predDay d) < toOrd today := by omega
      have hrec := ih (predDay d) (streak + 1) hv2 hlt2
      rw [hrec]
      cases streakWalkFuel log fuel (predDay d) with
      | none => simp
      | some m =>
        show some (m + (streak + 1)) = some (m + 1 + streak)
        simp only [Option.some.injEq]
        omega
    · rw [if_neg hs, if_neg hs]
      simp

end Pulse

namespace Pulse

/-- One step of the newer walk, with the recursion expressed via
`Option.map`. -/
theorem streakWalkFuel_succ (log : List (String × String)) (fuel : Nat)
    (d : Date) :
    streakWalkFuel log (fuel + 1) d =
      if lookupLog log (dateToString d) = some "succeeded" then
        (streakWalkFuel log fuel (predDay d)).map (fun n => n + 1)
      else some 0 := by
  show (if lookupLog log (dateToString d) = some "succeeded" then
      match streakWalkFuel log fuel (predDay d) with
      | none => none
      | some n => some (n + 1)
    else some 0) = _
  by_cases hs : lookupLog log (dateToString d) = some "succeeded"
  · rw [if_pos hs, if_pos hs]
    cases streakWalkFuel log fuel (predDay d) <;> rfl
  · rw [if_neg hs, if_neg hs]

/-- One step of the pages-revision walk. -/
theorem pagesWalkFuel_succ (log : List (String × String)) (today : Date)
    (fuel : Nat) (d : Date) (streak : Nat) :
    pagesWalkFuel log today (fuel + 1) d streak =
      if d = today then
        match lookupLog log (dateToString d) with
        | some v =>
          if v = "succeeded" then
            pagesWalkFuel log today fuel (predDay d) (streak + 1)
          else some streak
        | none => pagesWalkFuel log today fuel (predDay d) streak
      else
        if lookupLog log (dateToString d) = some "succeeded" then
          pagesWalkFuel log today fuel (predDay d) (streak + 1)
        else some streak := rfl

/-- The two revisions agree on every valid reference date. -/
theorem pages_eq_main_current_streak (log : List (String × String))
    (today : Date) (hv : today.Valid) :
    pages_compute_current_streak log today = compute_current_streak log today := by
  unfold pages_compute_current_streak compute_current_streak
  have hvp := predDay_valid today hv
  have hop := toOrd_predDay today hv
  by_cases hin : (lookupLog log (dateToString today)).isSome
  · rw [if_pos hin]
    obtain ⟨v, hv2⟩ := Option.isSome_iff_exists.mp hin
    cases hN : (toOrd today).toNat with
    | zero => rfl
    | succ M =>
      by_cases hsv : v = "succeeded"
      · subst hsv
        have hpw := pagesWalk_eq_streakWalk log today M
          (predDay today) 1 hvp (by omega)
        rw [streakWalkFuel_succ, if_pos hv2, pagesWalkFuel_succ, if_pos rfl, hv2]
        show (if ("succeeded" : String) = "succeeded" then
            pagesWalkFuel log today M (predDay today) (0 + 1)
          else some 0) = (streakWalkFuel log M (predDay today)).map (fun n => n + 1)
        rw [if_pos rfl]
        exact hpw
      · have hns : ¬ lookupLog log (dateToString today) = some "succeeded" := by
          rw [hv2]
          simp [hsv]
        rw [streakWalkFuel_succ, if_neg hns, pagesWalkFuel_succ, if_pos rfl, hv2]
        show (if v = "succeeded" then
            pagesWalkFuel log today M (predDay today) (0 + 1)
          else some 0) = some 0
        rw [if_neg hsv]
  · rw [if_neg hin]
    have hlnone : lookupLog log (dateToString today) = none :=
      Option.not_isSome_iff_eq_none.mp hin
    cases hN : (toOrd today).toNat with
    | zero =>
      have hz : (toOrd today - 1).toNat = 0 := by omega
      rw [hz]
      rfl
    | succ M =>
      have hM : (toOrd today - 1).toNat = M := by omega
      rw [hM]
      have hpw := pagesWalk_eq_streakWalk log today M
        (predDay today) 0 hvp (by omega)
      rw [pagesWalkFuel_succ, if_pos rfl, hlnone, hpw]
      cases streakWalkFuel log M (predDay today) <;> simp

/-- Adding a future-dated entry to the log does not change any lookup the
bounded backward walk can perform. -/
theorem streakWalk_future_congr {log : List (String × String)}
    {k v : String} {kd today : Date} (hp : parseDate k = some kd)
    (ht : today.InRange) (hgt : dateLt today kd) :
    ∀ (fuel : ℕ) (d : Date), d.Valid → toOrd d ≤ toOrd today →
      (fuel : Int) ≤ toOrd d →
      streakWalkFuel ((k, v) :: log) fuel d = streakWalkFuel log fuel d := by
  have hkd := parseDate_inRange hp
  intro fuel
  induction fuel with
  | zero =>
    intro d hv hle hfu
    rfl
  | succ fuel ih =>
    intro d hv hle hfu
    have hfi : ((fuel : Int) + 1) ≤ toOrd d := by
      push_cast at hfu
      omega
    have hne : ¬ k = dateToString d := by
      intro he
      have hy1 : 1 ≤ d.year := year_ge_one_of_ord d hv (by omega)
      have hy9 : d.year ≤ 9999 := by
        have := dateYear_le_of_ord_le hv ht.1 hle
        have := ht.2.2
        omega
      have hde : d = kd := de_of_parse_toString hp hv (by omega) hy9 he.symm
      have hlt := toOrd_lt_of_dateLt ht.1 hkd.1 hgt
      rw [← hde] at hlt
      omega
    have hlk : lookupLog ((k, v) :: log) (dateToString d) =
        lookupLog log (dateToString d) := by
      show (if k = dateToString d then some v else
        lookupLog log (dateToString d)) = lookupLog log (dateToString d)
      rw [if_neg hne]
    unfold streakWalkFuel
    rw [hlk]
    by_cases hs : lookupLog log (dateToString d) = some "succeeded"
    · rw [if_pos hs, if_pos hs]
      have hv2 := predDay_valid d hv
      have ho2 := toOrd_predDay d hv
      have hrec := ih (predDay d) hv2 (by omega) (by omega)
      rw [hrec]
    · rw [if_neg hs, if_neg hs]

end Pulse

namespace Pulse

/-! ## Lemmas about the forward longest-streak scan -/

theorem scanFuel_zero (log : List (String × String)) (d : Date)
    (cur lng : Nat) : scanFuel log 0 d cur lng = some (max lng cur) := rfl

theorem scanFuel_succ (log : List (String × String)) (fuel : Nat) (d : Date)
    (cur lng : Nat) :
    scanFuel log (fuel + 1) d cur lng =
      if 0 < toOrd d + 1 ∧ toOrd d + 1 ≤ 3652059 then
        if lookupLog log (dateToString d) = some "succeeded" then
          scanFuel log fuel (succDay d) (cur + 1) lng
        else
          scanFuel log fuel (succDay d) 0 (max lng cur)
      else none := rfl

theorem scanFuel_ge_longest (log : List (String × String)) :
    ∀ (fuel : Nat) (d : Date) (cur lng r : Nat),
      scanFuel log fuel d cur lng = some r → lng ≤ r := by
  intro fuel
  induction fuel with
  | zero =>
    intro d cur lng r hr
    rw [scanFuel_zero] at hr
    have := Option.some.inj hr
    omega
  | succ fuel ih =>
    intro d cur lng r hr
    rw [scanFuel_succ] at hr
    by_cases ho : 0 < toOrd d + 1 ∧ toOrd d + 1 ≤ 3652059
    · rw [if_pos ho] at hr
      by_cases hs : lookupLog log (dateToString d) = some "succeeded"
      · rw [if_pos hs] at hr
        exact ih (succDay d) (cur + 1) lng r hr
      · rw [if_neg hs] at hr
        have := ih (succDay d) 0 (max lng cur) r hr
        omega
    · rw [if_neg ho] at hr
      exact absurd hr (by simp)

theorem scanFuel_ge_current (log : List (String × String)) :
    ∀ (fuel : Nat) (d : Date) (cur lng r : Nat),
      scanFuel log fuel d cur lng = some r → cur ≤ r := by
  intro fuel
  induction fuel with
  | zero =>
    intro d cur lng r hr
    rw [scanFuel_zero] at hr
    have := Option.some.inj hr
    omega
  | succ fuel ih =>
    intro d cur lng r hr
    rw [scanFuel_succ] at hr
    by_cases ho : 0 < toOrd d + 1 ∧ toOrd d + 1 ≤ 3652059
    · rw [if_pos ho] at hr
      by_cases hs : lookupLog log (dateToString d) = some "succeeded"
      · rw [if_pos hs] at hr
        have := ih (succDay d) (cur + 1) lng r hr
        omega
      · rw [if_neg hs] at hr
        have := scanFuel_ge_longest log fuel (succDay d) 0 (max lng cur) r hr
        omega
    · rw [if_neg ho] at hr
      exact absurd hr (by simp)

theorem scanFuel_ge_lead_run (log : List (String × String)) :
    ∀ (fuel : Nat) (d : Date) (cur lng n r : Nat), n ≤ fuel →
      (∀ i, i < n → succeededOn log (succIter i d)) →
      scanFuel log fuel d cur lng = some r → cur + n ≤ r := by
  intro fuel
  induction fuel with
  | zero =>
    intro d cur lng n r hn hrun hr
    have : n = 0 := by omega
    subst this
    have := scanFuel_ge_current log 0 d cur lng r hr
    omega
  | succ fuel ih =>
    intro d cur lng n r hn hrun hr
    cases n with
    | zero =>
      have := scanFuel_ge_current log (fuel + 1) d cur lng r hr
      omega
    | succ k =>
      have hs : lookupLog log (dateToString d) = some "succeeded" :=
        hrun 0 (by omega)
      rw [scanFuel_succ] at hr
      by_cases ho : 0 < toOrd d + 1 ∧ toOrd d + 1 ≤ 3652059
      · rw [if_pos ho, if_pos hs] at hr
        have := ih (succDay d) (cur + 1) lng k r (by omega)
          (fun i hi => hrun (i + 1) (by omega)) hr
        omega
      · rw [if_neg ho] at hr
        exact absurd hr (by simp)

theorem scanFuel_ge_run (log : List (String × String)) :
    ∀ (fuel : Nat) (d : Date) (cur lng lo n r : Nat), lo + n ≤ fuel →
      (∀ i, i < n → succeededOn log (succIter (lo + i) d)) →
      scanFuel log fuel d cur lng = some r → n ≤ r := by
  intro fuel
  induction fuel with
  | zero =>
    intro d cur lng lo n r hn hrun hr
    have : n = 0 := by omega
    subst this
    omega
  | succ fuel ih =>
    intro d cur lng lo n r hn hrun hr
    cases lo with
    | zero =>
      have := scanFuel_ge_lead_run log (fuel + 1) d cur lng n r (by omega)
        (fun i hi => by
          have hx := hrun i hi
          rw [Nat.zero_add] at hx
          exact hx) hr
      omega
    | succ j =>
      have hshift : ∀ i, i < n → succeededOn log (succIter (j + i) (succDay d)) := by
        intro i hi
        have hx := hrun i hi
        have he : j + 1 + i = (j + i) + 1 := by omega
        rw [he] at hx
        exact hx
      rw [scanFuel_succ] at hr
      by_cases ho : 0 < toOrd d + 1 ∧ toOrd d + 1 ≤ 3652059
      · rw [if_pos ho] at hr
        by_cases hs : lookupLog log (dateToString d) = some "succeeded"
        · rw [if_pos hs] at hr
          exact ih (succDay d) (cur + 1) lng j n r (by omega) hshift hr
        · rw [if_neg hs] at hr
          exact ih (succDay d) 0 (max lng cur) j n r (by omega) hshift hr
      · rw [if_neg ho] at hr
        exact absurd hr (by simp)

theorem scanFuel_cases (log : List (String × String)) :
    ∀ (fuel : Nat) (d : Date) (cur lng r : Nat),
      scanFuel log fuel d cur lng = some r →
      r = lng ∨
      (∃ n, n ≤ fuel ∧ (∀ i, i < n → succeededOn log (succIter i d)) ∧
        r = cur + n) ∨
      (∃ lo n, lo + n ≤ fuel ∧
        (∀ i, i < n → succeededOn log (succIter (lo + i) d)) ∧
        r = n) := by
  intro fuel
  induction fuel with
  | zero =>
    intro d cur lng r hr
    rw [scanFuel_zero] at hr
    have hv := Option.some.inj hr
    rcases Nat.le_total lng cur with hc | hc
    · right
      left
      exact ⟨0, by omega, by omega, by omega⟩
    · left
      omega
  | succ fuel ih =>
    intro d cur lng r hr
    rw [scanFuel_succ] at hr
    by_cases ho : 0 < toOrd d + 1 ∧ toOrd d + 1 ≤ 3652059
    · rw [if_pos ho] at hr
      by_cases hs : lookupLog log (dateToString d) = some "succeeded"
      · rw [if_pos hs] at hr
        rcases ih (succDay d) (cur + 1) lng r hr with hc | ⟨n, hn, hrun, hval⟩ |
          ⟨lo, n, hn, hrun, hval⟩
        · left
          exact hc
        · right
          left
          refine ⟨n + 1, by omega, ?_, by omega⟩
          intro i hi
          cases i with
          | zero => exact hs
          | succ j => exact hrun j (by omega)
        · right
          right
          refine ⟨lo + 1, n, by omega, ?_, hval⟩
          intro i hi
          have hx := hrun i hi
          have he : lo + 1 + i = (lo + i) + 1 := by omega
          rw [he]
          exact hx
      · rw [if_neg hs] at hr
        rcases ih (succDay d) 0 (max lng cur) r hr with hc | ⟨n, hn, hrun, hval⟩ |
          ⟨lo, n, hn, hrun, hval⟩
        · rcases Nat.le_total lng cur with hm | hm
          · right
            left
            refine ⟨0, by omega, by omega, by omega⟩
          · left
            omega
        · right
          right
          refine ⟨1, n, by omega, ?_, by omega⟩
          intro i hi
          have hx := hrun i hi
          have he : 1 + i = i + 1 := by omega
          rw [he]
          exact hx
        · right
          right
          refine ⟨lo + 1, n, by omega, ?_, hval⟩
          intro i hi
          have hx := hrun i hi
          have he : lo + 1 + i = (lo + i) + 1 := by omega
          rw [he]
          exact hx
    · rw [if_neg ho] at hr
      exact absurd hr (by simp)

/-- The scan completes (no `OverflowError`) exactly when every visited
day's trailing increment stays within `date`'s ordinal range; walking
`fuel` days from a valid `d` with `0 ≤ toOrd d` and
`toOrd d + fuel ≤ 3652059` never leaves it. -/
theorem scanFuel_isSome (log : List (String × String)) :
    ∀ (fuel : Nat) (d : Date) (cur lng : Nat), d.Valid → 0 ≤ toOrd d →
      toOrd d + fuel ≤ 3652059 →
      ∃ r, scanFuel log fuel d cur lng = some r := by
  intro fuel
  induction fuel with
  | zero =>
    intro d cur lng hv h0 hub
    exact ⟨max lng cur, rfl⟩
  | succ fuel ih =>
    intro d cur lng hv h0 hub
    have ho : 0 < toOrd d + 1 ∧ toOrd d + 1 ≤ 3652059 := by
      constructor
      · omega
      · omega
    rw [scanFuel_succ, if_pos ho]
    have hv2 := succDay_valid d hv
    have ho2 := toOrd_succDay d hv
    by_cases hs : lookupLog log (dateToString d) = some "succeeded"
    · rw [if_pos hs]
      exact ih (succDay d) (cur + 1) lng hv2 (by omega) (by omega)
    · rw [if_neg hs]
      exact ih (succDay d) 0 (max lng cur) hv2 (by omega) (by omega)

end Pulse

namespace Pulse

/-! ## Key parsing, minimum date, and run conversion lemmas -/

theorem dateLe_refl (a : Date) : dateLe a a := by
  unfold dateLe
  omega

theorem dateLe_trans {a b c : Date} (h1 : dateLe a b) (h2 : dateLe b c) :
    dateLe a c := by
  unfold dateLe at *
  omega

theorem dateLt_imp_le {a b : Date} (h : dateLt a b) : dateLe a b := by
  unfold dateLt at h
  unfold dateLe
  omega

theorem not_dateLt_imp_le {a b : Date} (h : ¬ dateLt a b) : dateLe b a := by
  unfold dateLt at h
  unfold dateLe
  omega

theorem parseKeys_some_of_wf (log : List (String × String))
    (hwf : ∀ p, p ∈ log → ∃ kd, kd.InRange ∧ dateToString kd = p.1) :
    ∃ ds, parseKeys log = some ds := by
  induction log with
  | nil => exact ⟨[], rfl⟩
  | cons p rest ih =>
    obtain ⟨k, v⟩ := p
    obtain ⟨kd, hkd, hks⟩ := hwf (k, v) (List.mem_cons_self _ _)
    obtain ⟨ds, hds⟩ := ih (fun q hq => hwf q (List.mem_cons_of_mem _ hq))
    have hp : parseDate k = some kd := by
      dsimp only at hks
      rw [← hks]
      exact parse_dateToString_inRange kd hkd
    refine ⟨kd :: ds, ?_⟩
    unfold parseKeys
    rw [hp, hds]

theorem parseKeys_forward {log : List (String × String)} {ds : List Date}
    (h : parseKeys log = some ds) :
    ∀ k v, (k, v) ∈ log → ∃ d, d ∈ ds ∧ parseDate k = some d := by
  induction log generalizing ds with
  | nil =>
    intro k v hm
    simp at hm
  | cons p rest ih =>
    obtain ⟨k1, v1⟩ := p
    intro k v hm
    unfold parseKeys at h
    cases hp : parseDate k1 with
    | none => rw [hp] at h; simp at h
    | some d1 =>
      rw [hp] at h
      cases hrest : parseKeys rest with
      | none => rw [hrest] at h; simp at h
      | some ds1 =>
        rw [hrest] at h
        simp only [Option.some.injEq] at h
        subst h
        rcases List.mem_cons.mp hm with he | hm2
        · refine ⟨d1, List.mem_cons_self _ _, ?_⟩
          have : k = k1 := by
            have := congrArg Prod.fst he
            simpa using this
          rw [this]
          exact hp
        · obtain ⟨d, hd1, hd2⟩ := ih hrest k v hm2
          exact ⟨d, List.mem_cons_of_mem _ hd1, hd2⟩

theorem parseKeys_backward {log : List (String × String)} {ds : List Date}
    (h : parseKeys log = some ds) :
    ∀ d, d ∈ ds → ∃ k v, (k, v) ∈ log ∧ parseDate k = some d := by
  induction log generalizing ds with
  | nil =>
    unfold parseKeys at h
    simp only [Option.some.injEq] at h
    subst h
    intro d hd
    simp at hd
  | cons p rest ih =>
    obtain ⟨k1, v1⟩ := p
    intro d hd
    unfold parseKeys at h
    cases hp : parseDate k1 with
    | none => rw [hp] at h; simp at h
    | some d1 =>
      rw [hp] at h
      cases hrest : parseKeys rest with
      | none => rw [hrest] at h; simp at h
      | some ds1 =>
        rw [hrest] at h
        simp only [Option.some.injEq] at h
        subst h
        rcases List.mem_cons.mp hd with he | hm2
        · subst he
          exact ⟨k1, v1, List.mem_cons_self _ _, hp⟩
        · obtain ⟨k, v, hk1, hk2⟩ := ih hrest d hm2
          exact ⟨k, v, List.mem_cons_of_mem _ hk1, hk2⟩

theorem minDate_spec (e : Date) (es : List Date) :
    minDate e es ∈ e :: es ∧ ∀ x, x ∈ e :: es → dateLe (minDate e es) x := by
  induction es generalizing e with
  | nil =>
    refine ⟨List.mem_cons_self _ _, ?_⟩
    intro x hx
    rcases List.mem_cons.mp hx with he | hm
    · subst he
      exact dateLe_refl _
    · simp at hm
  | cons b es ih =>
    have hstep : minDate e (b :: es) = minDate (if dateLt b e then b else e) es := rfl
    rw [hstep]
    obtain ⟨ihm, ihle⟩ := ih (if dateLt b e then b else e)
    constructor
    · rcases List.mem_cons.mp ihm with he | hm
      · rw [he]
        split_ifs
        · exact List.mem_cons_of_mem _ (List.mem_cons_self _ _)
        · exact List.mem_cons_self _ _
      · exact List.mem_cons_of_mem _ (List.mem_cons_of_mem _ hm)
    · intro x hx
      have hme : dateLe (minDate (if dateLt b e then b else e) es)
          (if dateLt b e then b else e) :=
        ihle _ (List.mem_cons_self _ _)
      rcases List.mem_cons.mp hx with he | hm
      · rw [he]
        by_cases hbe : dateLt b e
        · rw [if_pos hbe] at hme ⊢
          exact dateLe_trans hme (dateLt_imp_le hbe)
        · rw [if_neg hbe] at hme ⊢
          exact hme
      · rcases List.mem_cons.mp hm with he2 | hm2
        · rw [he2]
          by_cases hbe : dateLt b e
          · rw [if_pos hbe] at hme ⊢
            exact hme
          · rw [if_neg hbe] at hme ⊢
            exact dateLe_trans hme (not_dateLt_imp_le hbe)
        · exact ihle _ (List.mem_cons_of_mem _ hm2)

/-- Going `j` days back from `m` days after a valid date lands `m - j` days
after it. -/
theorem predIter_succIter (start : Date) (hv : start.Valid) (j m : Nat)
    (hjm : j ≤ m) :
    predIter j (succIter m start) = succIter (m - j) start := by
  have h1 := succIter_valid_ord start hv m
  have h2 := predIter_valid_ord (succIter m start) h1.1 j
  have h3 := succIter_valid_ord start hv (m - j)
  refine toOrd_inj h2.1 h3.1 ?_
  rw [h2.2, h1.2, h3.2]
  have : ((m - j : Nat) : Int) = (m : Int) - (j : Int) := by omega
  rw [this]
  ring

end Pulse

namespace Pulse

/-! ## Core lemmas about compute_longest_streak -/

theorem compute_longest_streak_eq (log : List (String × String))
    (today : Date) (ds : List Date) (hds : parseKeys log = some ds) :
    compute_longest_streak log today =
      match ds.filter (fun e => decide (dateLe e today)) with
      | [] => some 0
      | e :: es => scanFuel log
          (toOrd today + 1 - toOrd (minDate e es)).toNat (minDate e es) 0 0 := by
  unfold compute_longest_streak
  rw [hds]

theorem longest_streak_isSome (log : List (String × String)) (today : Date)
    (hwf : ∀ p, p ∈ log → ∃ kd, kd.InRange ∧ dateToString kd = p.1)
    (ht : today.InRange) (hmax : toOrd today < 3652059) :
    ∃ L, compute_longest_streak log today = some L := by
  obtain ⟨ds, hds⟩ := parseKeys_some_of_wf log hwf
  rw [compute_longest_streak_eq log today ds hds]
  cases hfil : ds.filter (fun e => decide (dateLe e today)) with
  | nil => exact ⟨0, rfl⟩
  | cons e es =>
    obtain ⟨hminm, hminle⟩ := minDate_spec e es
    rw [← hfil] at hminm
    have hmf := List.mem_filter.mp hminm
    have hstle : dateLe (minDate e es) today := by
      have := hmf.2
      simpa using this
    obtain ⟨k0, v0, hk0, hp0⟩ := parseKeys_backward hds _ hmf.1
    have hstart : (minDate e es).InRange := parseDate_inRange hp0
    have hso : toOrd (minDate e es) ≤ toOrd today :=
      (dateLe_iff_ord hstart.1 ht.1).mp hstle
    have hs1 : 1 ≤ toOrd (minDate e es) :=
      toOrd_ge_one _ hstart.1 hstart.2.1
    exact scanFuel_isSome log (toOrd today + 1 - toOrd (minDate e es)).toNat
      (minDate e es) 0 0 hstart.1 (by omega) (by omega)

/-- Every day of a consecutive run of `"succeeded"` days ending at a
representable date `e ≤ today` is a parsed log key date: it is valid, in
range, in the parsed-key list, and dated no later than `today`. -/
theorem run_day_facts {log : List (String × String)} {today : Date}
    (hwf : ∀ p, p ∈ log → ∃ kd, kd.InRange ∧ dateToString kd = p.1)
    (ht : today.InRange) {ds : List Date} (hds : parseKeys log = some ds)
    {e : Date} (he : e.InRange) (hle : dateLe e today) {n : Nat}
    (hne : (n : Int) ≤ toOrd e)
    (hrun : ∀ i, i < n → succeededOn log (predIter i e)) :
    ∀ i, i < n → (predIter i e).InRange ∧ predIter i e ∈
      ds.filter (fun x => decide (dateLe x today)) := by
  intro i hi
  obtain ⟨hvi, hoi⟩ := predIter_valid_ord e he.1 i
  have hoe := (dateLe_iff_ord he.1 ht.1).mp hle
  have hyi : 1 ≤ (predIter i e).year := by
    refine year_ge_one_of_ord _ hvi ?_
    omega
  have hyi9 : (predIter i e).year ≤ 9999 := by
    have h1 := dateYear_le_of_ord_le hvi ht.1 (by omega)
    have h2 := ht.2.2
    omega
  have hir : (predIter i e).InRange := ⟨hvi, hyi, hyi9⟩
  refine ⟨hir, ?_⟩
  have hsucc := hrun i hi
  unfold succeededOn at hsucc
  have hmem := lookupLog_mem hsucc
  obtain ⟨dd, hdd, hdp⟩ := parseKeys_forward hds _ _ hmem
  have hrt : parseDate (dateToString (predIter i e)) = some (predIter i e) :=
    parse_dateToString_inRange _ hir
  rw [hrt] at hdp
  have hde : predIter i e = dd := Option.some.inj hdp
  rw [← hde] at hdd
  refine List.mem_filter.mpr ⟨hdd, ?_⟩
  simp only [decide_eq_true_eq]
  exact (dateLe_iff_ord hvi ht.1).mpr (by omega)

/-- A run of `"succeeded"` days ending at a representable `e ≤ today`
cannot be longer than `toOrd e`: walking it back further would cross day
0001-01-01, and the day before that renders as year `0000`, which is not
the string of any representable key. -/
theorem run_le_toOrd {log : List (String × String)} {today : Date}
    (hwf : ∀ p, p ∈ log → ∃ kd, kd.InRange ∧ dateToString kd = p.1)
    (ht : today.InRange) {e : Date} (he : e.InRange) (hle : dateLe e today)
    {n : Nat} (hrun : ∀ i, i < n → succeededOn log (predIter i e)) :
    (n : Int) ≤ toOrd e := by
  by_contra hc
  push_neg at hc
  have hoe1 : 1 ≤ toOrd e := toOrd_ge_one e he.1 he.2.1
  have hi0 : (toOrd e).toNat < n := by omega
  obtain ⟨hvi, hoi⟩ := predIter_valid_ord e he.1 (toOrd e).toNat
  have hzero : toOrd (predIter (toOrd e).toNat e) = 0 := by omega
  have hday := eq_zero_day_of_ord _ hvi hzero
  have hsucc := hrun _ hi0
  unfold succeededOn at hsucc
  rw [hday] at hsucc
  have hmem := lookupLog_mem hsucc
  obtain ⟨kd, hkd, hks⟩ := hwf _ hmem
  dsimp only at hks
  have hbad : parseDate (dateToString (⟨0, 12, 31⟩ : Date)) = some kd := by
    rw [← hks]
    exact parse_dateToString_inRange kd hkd
  have hnone : parseDate (dateToString (⟨0, 12, 31⟩ : Date)) = none := by decide
  rw [hnone] at hbad
  exact absurd hbad (by simp)

end Pulse

namespace Pulse

theorem longest_run_le {log : List (String × String)} {today : Date}
    (hwf : ∀ p, p ∈ log → ∃ kd, kd.InRange ∧ dateToString kd = p.1)
    (ht : today.InRange) {L : Nat}
    (hL : compute_longest_streak log today = some L) {n : Nat} {e : Date}
    (he : e.InRange) (hle : dateLe e today)
    (hrun : ∀ i, i < n → succeededOn log (predIter i e)) : n ≤ L := by
  cases n with
  | zero => omega
  | succ N =>
    obtain ⟨ds, hds⟩ := parseKeys_some_of_wf log hwf
    have hne := run_le_toOrd hwf ht he hle hrun
    have hfacts := run_day_facts hwf ht hds he hle hne hrun
    rw [compute_longest_streak_eq log today ds hds] at hL
    cases hfil : ds.filter (fun x => decide (dateLe x today)) with
    | nil =>
      have h0 := (hfacts 0 (by omega)).2
      rw [hfil] at h0
      simp at h0
    | cons e0 es =>
      rw [hfil] at hL
      have hL2 : scanFuel log
          (toOrd today + 1 - toOrd (minDate e0 es)).toNat (minDate e0 es) 0 0 =
          some L := hL
      obtain ⟨hminm, hminle⟩ := minDate_spec e0 es
      rw [← hfil] at hminm
      have hmf := List.mem_filter.mp hminm
      have hstle : dateLe (minDate e0 es) today := by
        have := hmf.2
        simpa using this
      obtain ⟨k0, v0, hk0, hp0⟩ := parseKeys_backward hds _ hmf.1
      have hstart : (minDate e0 es).InRange := parseDate_inRange hp0
      have hso : toOrd (minDate e0 es) ≤ toOrd today :=
        (dateLe_iff_ord hstart.1 ht.1).mp hstle
      have hs1 : 1 ≤ toOrd (minDate e0 es) :=
        toOrd_ge_one _ hstart.1 hstart.2.1
    -- ordinal of each run day, and the minimum-date lower bound for day N
      have hdayN := hfacts N (by omega)
      have hdayNle : dateLe (minDate e0 es) (predIter N e) := by
        apply hminle
        rw [hfil] at hdayN
        exact hdayN.2
      obtain ⟨hvN, hoN⟩ := predIter_valid_ord e he.1 N
      have hdayNord : toOrd (minDate e0 es) ≤ toOrd e - N := by
        have := (dateLe_iff_ord hstart.1 hvN).mp hdayNle
        omega
      have hlo : ((toOrd e - N - toOrd (minDate e0 es)).toNat : Int) =
          toOrd e - N - toOrd (minDate e0 es) := by omega
      have heq : ∀ j, j < N + 1 →
          succIter ((toOrd e - N - toOrd (minDate e0 es)).toNat + j)
            (minDate e0 es) = predIter (N - j) e := by
        intro j hj
        obtain ⟨hvs, hos⟩ := succIter_valid_ord (minDate e0 es) hstart.1
          ((toOrd e - N - toOrd (minDate e0 es)).toNat + j)
        obtain ⟨hvp, hop⟩ := predIter_valid_ord e he.1 (N - j)
        refine toOrd_inj hvs hvp ?_
        rw [hos, hop]
        push_cast
        omega
      have hbound : (toOrd e - N - toOrd (minDate e0 es)).toNat + (N + 1) ≤
          (toOrd today + 1 - toOrd (minDate e0 es)).toNat := by
        have hoe := (dateLe_iff_ord he.1 ht.1).mp hle
        omega
      have hrun2 : ∀ j, j < N + 1 → succeededOn log
          (succIter ((toOrd e - N - toOrd (minDate e0 es)).toNat + j)
            (minDate e0 es)) := by
        intro j hj
        rw [heq j hj]
        exact hrun (N - j) (by omega)
      have hrle := scanFuel_ge_run log
        (toOrd today + 1 - toOrd (minDate e0 es)).toNat (minDate e0 es) 0 0
        (toOrd e - N - toOrd (minDate e0 es)).toNat (N + 1) L hbound hrun2 hL2
      exact hrle

theorem scan_run_to_date_run {log : List (String × String)} {today : Date}
    (ht : today.InRange) {start : Date} (hstart : start.InRange)
    (lo n : Nat)
    (hbound : (lo : Int) + n ≤ toOrd today + 1 - toOrd start) (hn : 1 ≤ n)
    (hrun : ∀ i, i < n → succeededOn log (succIter (lo + i) start)) :
    ∃ e, e.InRange ∧ dateLe e today ∧
      ∀ i, i < n → succeededOn log (predIter i e) := by
  obtain ⟨N, rfl⟩ : ∃ N, n = N + 1 := ⟨n - 1, by omega⟩
  obtain ⟨hvE, hoE⟩ := succIter_valid_ord start hstart.1 (lo + N)
  have hs1 : 1 ≤ toOrd start := toOrd_ge_one _ hstart.1 hstart.2.1
  have hyE : 1 ≤ (succIter (lo + N) start).year := by
    refine year_ge_one_of_ord _ hvE ?_
    push_cast at hoE
    omega
  have hoE2 : toOrd (succIter (lo + N) start) ≤ toOrd today := by
    push_cast at hoE
    omega
  have hyE9 : (succIter (lo + N) start).year ≤ 9999 := by
    have h1 := dateYear_le_of_ord_le hvE ht.1 hoE2
    have h2 := ht.2.2
    omega
  refine ⟨succIter (lo + N) start, ⟨hvE, hyE, hyE9⟩,
    (dateLe_iff_ord hvE ht.1).mpr hoE2, ?_⟩
  intro i hi
  have hps := predIter_succIter start hstart.1 i (lo + N) (by omega)
  rw [hps]
  have hidx : lo + N - i = lo + (N - i) := by omega
  rw [hidx]
  exact hrun (N - i) (by omega)

theorem longest_run_exists {log : List (String × String)} {today : Date}
    (ht : today.InRange) {L : Nat}
    (hL : compute_longest_streak log today = some L)
    {ds : List Date} (hds : parseKeys log = some ds) :
    L = 0 ∨ ∃ e, e.InRange ∧ dateLe e today ∧
      ∀ i, i < L → succeededOn log (predIter i e) := by
  rw [compute_longest_streak_eq log today ds hds] at hL
  cases hfil : ds.filter (fun x => decide (dateLe x today)) with
  | nil =>
    rw [hfil] at hL
    have hL2 : some 0 = some L := hL
    left
    have h0 := Option.some.inj hL2
    omega
  | cons e0 es =>
    rw [hfil] at hL
    have hL2 : scanFuel log
        (toOrd today + 1 - toOrd (minDate e0 es)).toNat (minDate e0 es) 0 0 =
        some L := hL
    obtain ⟨hminm, hminle⟩ := minDate_spec e0 es
    rw [← hfil] at hminm
    have hmf := List.mem_filter.mp hminm
    have hstle : dateLe (minDate e0 es) today := by
      have := hmf.2
      simpa using this
    obtain ⟨k0, v0, hk0, hp0⟩ := parseKeys_backward hds _ hmf.1
    have hstart : (minDate e0 es).InRange := parseDate_inRange hp0
    have hso : toOrd (minDate e0 es) ≤ toOrd today :=
      (dateLe_iff_ord hstart.1 ht.1).mp hstle
    have hfc : ((toOrd today + 1 - toOrd (minDate e0 es)).toNat : Int) =
        toOrd today + 1 - toOrd (minDate e0 es) := by omega
    rcases scanFuel_cases log (toOrd today + 1 - toOrd (minDate e0 es)).toNat
        (minDate e0 es) 0 0 L hL2 with hc | ⟨n, hn, hrun, hval⟩ |
        ⟨lo, n, hn, hrun, hval⟩
    · left
      exact hc
    · have hsn : L = 0 + n := hval
      rcases Nat.eq_zero_or_pos n with hz | hpos
      · left
        omega
      · right
        have hL3 : L = n := by omega
        subst hL3
        refine scan_run_to_date_run ht hstart 0 _ ?_ hpos ?_
        · push_cast
          omega
        · intro i hi
          have hx := hrun i hi
          rw [Nat.zero_add]
          exact hx
    · have hsn : L = n := hval
      rcases Nat.eq_zero_or_pos n with hz | hpos
      · left
        omega
      · right
        subst hsn
        refine scan_run_to_date_run ht hstart lo _ ?_ hpos hrun
        push_cast
        omega

end Pulse

namespace Pulse

/-! ## Helpers for the current-streak claims -/

theorem compute_current_streak_eq (log : List (String × String))
    (today : Date) :
    compute_current_streak log today =
      streakWalkFuel log
        (if (lookupLog log (dateToString today)).isSome then
          (toOrd today).toNat else (toOrd today - 1).toNat)
        (streakStart log today) := by
  unfold compute_current_streak streakStart
  by_cases hin : (lookupLog log (dateToString today)).isSome
  · rw [if_pos hin, if_pos hin, if_pos hin]
  · rw [if_neg hin, if_neg hin, if_neg hin]

/-- A backward run of `n` succeeded days starting no later than ordinal
`toOrd start` uses `n` distinct log keys, so `n` is at most the size of
the log. -/
theorem run_keys_count {log : List (String × String)} {start : Date}
    (hv : start.Valid) (h9 : start.year ≤ 9999) {n : Nat}
    (hbound : (n : Int) ≤ toOrd start)
    (hrun : ∀ i, i < n → succeededOn log (predIter i start)) :
    n ≤ log.length := by
  have hdayr : ∀ i, i < n → (predIter i start).InRange := by
    intro i hi
    obtain ⟨hvi, hoi⟩ := predIter_valid_ord start hv i
    refine ⟨hvi, ?_, ?_⟩
    · refine year_ge_one_of_ord _ hvi ?_
      omega
    · have := dateYear_le_of_ord_le hvi hv (by omega)
      omega
  have hinj : ∀ i, i < n → ∀ j, j < n →
      dateToString (predIter i start) = dateToString (predIter j start) →
      i = j := by
    intro i hi j hj he
    have hri := parse_dateToString_inRange _ (hdayr i hi)
    have hrj := parse_dateToString_inRange _ (hdayr j hj)
    rw [he, hrj] at hri
    have hd := Option.some.inj hri
    obtain ⟨-, hoi⟩ := predIter_valid_ord start hv i
    obtain ⟨-, hoj⟩ := predIter_valid_ord start hv j
    rw [hd] at hoj
    omega
  have hmem : ∀ i, i < n →
      dateToString (predIter i start) ∈ log.map Prod.fst := by
    intro i hi
    have hs := hrun i hi
    unfold succeededOn at hs
    exact List.mem_map_of_mem Prod.fst (lookupLog_mem hs)
  have hnodup : ((List.range n).map
      (fun i => dateToString (predIter i start))).Nodup := by
    refine List.Nodup.map_on ?_ (List.nodup_range n)
    intro i hi j hj he
    exact hinj i (List.mem_range.mp hi) j (List.mem_range.mp hj) he
  have hsub : ((List.range n).map
      (fun i => dateToString (predIter i start))).toFinset ⊆
      (log.map Prod.fst).toFinset := by
    intro s hs
    rw [List.mem_toFinset] at hs ⊢
    obtain ⟨i, hi, he⟩ := List.mem_map.mp hs
    rw [← he]
    exact hmem i (List.mem_range.mp hi)
  have hc1 : ((List.range n).map
      (fun i => dateToString (predIter i start))).toFinset.card = n := by
    rw [List.toFinset_card_of_nodup hnodup]
    simp
  have hc2 := Finset.card_le_card hsub
  have hc3 : (log.map Prod.fst).toFinset.card ≤ (log.map Prod.fst).length :=
    List.toFinset_card_le _
  rw [hc1] at hc2
  simp only [List.length_map] at hc3
  omega

end Pulse

namespace Pulse

/-! ## Task period filter lemmas -/

theorem truthyStr_iff (o : Option String) :
    truthyStr o = true ↔ ∃ ca, o = some ca ∧ ca ≠ "" := by
  cases o with
  | none => simp [truthyStr]
  | some s => simp [truthyStr]

theorem dailyFilter_spec (today : Date) (tasks : List Task)
    (hca : ∀ t, t ∈ tasks → t.completed = true → ∀ ca,
      t.completed_at = some ca → ca ≠ "" → (fromisoDate ca).isSome) :
    ∃ res, dailyFilter today tasks = some res ∧
      ∀ t, t ∈ res ↔ (t ∈ tasks ∧ t.completed = true ∧
        ∃ ca d, t.completed_at = some ca ∧ ca ≠ "" ∧ fromisoDate ca = some d ∧
          d = today) := by
  induction tasks with
  | nil =>
    refine ⟨[], rfl, ?_⟩
    intro t
    simp
  | cons t0 rest ih =>
    obtain ⟨res, hres, hiff⟩ :=
      ih (fun t ht => hca t (List.mem_cons_of_mem _ ht))
    by_cases hcomp : (t0.completed && truthyStr t0.completed_at) = true
    · obtain ⟨hc0, htr⟩ := Bool.and_eq_true_iff.mp hcomp
      obtain ⟨ca, hcat, hcane⟩ := (truthyStr_iff _).mp htr
      obtain ⟨d, hd⟩ := Option.isSome_iff_exists.mp
        (hca t0 (List.mem_cons_self _ _) hc0 ca hcat hcane)
      have hcomp2 : (t0.completed && truthyStr (some ca)) = true := by
        rw [← hcat]
        exact hcomp
      have hstep : dailyFilter today (t0 :: rest) =
          some (if d = today then t0 :: res else res) := by
        simp only [dailyFilter, hcat, hcomp2, if_true, hd, hres]
      rw [hstep]
      by_cases hdt : d = today
      · refine ⟨t0 :: res, by rw [if_pos hdt], ?_⟩
        intro t
        constructor
        · intro hm
          rcases List.mem_cons.mp hm with he | hm2
          · subst he
            exact ⟨List.mem_cons_self _ _, hc0, ca, d, hcat, hcane, hd, hdt⟩
          · obtain ⟨h1, h2⟩ := (hiff t).mp hm2
            exact ⟨List.mem_cons_of_mem _ h1, h2⟩
        · rintro ⟨hm, hrest⟩
          rcases List.mem_cons.mp hm with he | hm2
          · subst he
            exact List.mem_cons_self _ _
          · exact List.mem_cons_of_mem _ ((hiff t).mpr ⟨hm2, hrest⟩)
      · refine ⟨res, by rw [if_neg hdt], ?_⟩
        intro t
        rw [hiff t]
        constructor
        · rintro ⟨h1, h2⟩
          exact ⟨List.mem_cons_of_mem _ h1, h2⟩
        · rintro ⟨hm, hc, ca2, d2, hcat2, hne2, hd2, hdt2⟩
          rcases List.mem_cons.mp hm with he | hm2
          · subst he
            rw [hcat] at hcat2
            have hce := Option.some.inj hcat2
            rw [← hce] at hd2
            rw [hd] at hd2
            have hde := Option.some.inj hd2
            rw [← hde] at hdt2
            exact absurd hdt2 hdt
          · exact ⟨hm2, hc, ca2, d2, hcat2, hne2, hd2, hdt2⟩
    · have hstep : dailyFilter today (t0 :: rest) = dailyFilter today rest := by
        simp only [dailyFilter, hcomp, if_false, Bool.false_eq_true]
      rw [hstep, hres]
      refine ⟨res, rfl, ?_⟩
      intro t
      rw [hiff t]
      constructor
      · rintro ⟨h1, h2⟩
        exact ⟨List.mem_cons_of_mem _ h1, h2⟩
      · rintro ⟨hm, hc, ca2, d2, hcat2, hne2, hd2, hdt2⟩
        rcases List.mem_cons.mp hm with he | hm2
        · subst he
          exact absurd (Bool.and_eq_true_iff.mpr
            ⟨hc, (truthyStr_iff _).mpr ⟨ca2, hcat2, hne2⟩⟩) hcomp
        · exact ⟨hm2, hc, ca2, d2, hcat2, hne2, hd2, hdt2⟩

end Pulse

namespace Pulse

theorem wmFilter_spec (start endD : Date) (tasks : List Task)
    (hts : ∀ t, t ∈ tasks → (fromisoDate t.timestamp).isSome)
    (hca : ∀ t, t ∈ tasks → t.completed = true → ∀ ca,
      t.completed_at = some ca → ca ≠ "" → (fromisoDate ca).isSome) :
    ∃ res, wmFilter start endD tasks = some res ∧
      ∀ t, t ∈ res ↔ (t ∈ tasks ∧
        ((t.completed = true ∧ ∃ ca cd, t.completed_at = some ca ∧ ca ≠ "" ∧
            fromisoDate ca = some cd ∧ dateLe start cd ∧ dateLe cd endD) ∨
         (t.completed = false ∧ ∃ cd, fromisoDate t.timestamp = some cd ∧
            dateLe start cd ∧ dateLe cd endD))) := by
  induction tasks with
  | nil =>
    refine ⟨[], rfl, ?_⟩
    intro t
    simp
  | cons t0 rest ih =>
    obtain ⟨res, hres, hiff⟩ :=
      ih (fun t ht => hts t (List.mem_cons_of_mem _ ht))
        (fun t ht => hca t (List.mem_cons_of_mem _ ht))
    obtain ⟨cr, hcr⟩ := Option.isSome_iff_exists.mp
      (hts t0 (List.mem_cons_self _ _))
    by_cases hcomp : (t0.completed && truthyStr t0.completed_at) = true
    · obtain ⟨hc0, htr⟩ := Bool.and_eq_true_iff.mp hcomp
      obtain ⟨ca, hcat, hcane⟩ := (truthyStr_iff _).mp htr
      obtain ⟨cd, hd⟩ := Option.isSome_iff_exists.mp
        (hca t0 (List.mem_cons_self _ _) hc0 ca hcat hcane)
      have hcomp2 : (t0.completed && truthyStr (some ca)) = true := by
        rw [← hcat]
        exact hcomp
      have hstep : wmFilter start endD (t0 :: rest) =
          some (if dateLe start cd ∧ dateLe cd endD then t0 :: res else res) := by
        simp only [wmFilter, hcr, hcat, hcomp2, if_true, hd, hres]
      rw [hstep]
      by_cases hin : dateLe start cd ∧ dateLe cd endD
      · refine ⟨t0 :: res, by rw [if_pos hin], ?_⟩
        intro t
        constructor
        · intro hm
          rcases List.mem_cons.mp hm with he | hm2
          · subst he
            exact ⟨List.mem_cons_self _ _,
              Or.inl ⟨hc0, ca, cd, hcat, hcane, hd, hin.1, hin.2⟩⟩
          · obtain ⟨h1, h2⟩ := (hiff t).mp hm2
            exact ⟨List.mem_cons_of_mem _ h1, h2⟩
        · rintro ⟨hm, hrest⟩
          rcases List.mem_cons.mp hm with he | hm2
          · subst he
            exact List.mem_cons_self _ _
          · exact List.mem_cons_of_mem _ ((hiff t).mpr ⟨hm2, hrest⟩)
      · refine ⟨res, by rw [if_neg hin], ?_⟩
        intro t
        rw [hiff t]
        constructor
        · rintro ⟨h1, h2⟩
          exact ⟨List.mem_cons_of_mem _ h1, h2⟩
        · rintro ⟨hm, hP⟩
          rcases List.mem_cons.mp hm with he | hm2
          · subst he
            rcases hP with ⟨hc2, ca2, cd2, hcat2, hne2, hd2, hin1, hin2⟩ |
              ⟨hc2, cd2, hd2, hin1, hin2⟩
            · rw [hcat] at hcat2
              have hce := Option.some.inj hcat2
              rw [← hce] at hd2
              rw [hd] at hd2
              have hde := Option.some.inj hd2
              rw [← hde] at hin1 hin2
              exact absurd ⟨hin1, hin2⟩ hin
            · rw [hc2] at hc0
              exact absurd hc0 (by simp)
          · exact ⟨hm2, hP⟩
    · have hstep : wmFilter start endD (t0 :: rest) =
          some (if (!t0.completed) = true ∧ dateLe start cr ∧ dateLe cr endD
            then t0 :: res else res) := by
        simp only [wmFilter, hcr, hcomp, if_false, Bool.false_eq_true, hres]
      rw [hstep]
      by_cases hin : (!t0.completed) = true ∧ dateLe start cr ∧ dateLe cr endD
      · refine ⟨t0 :: res, by rw [if_pos hin], ?_⟩
        intro t
        constructor
        · intro hm
          rcases List.mem_cons.mp hm with he | hm2
          · rw [he]
            refine ⟨List.mem_cons_self _ _,
              Or.inr ⟨?_, cr, hcr, hin.2.1, hin.2.2⟩⟩
            have hq := hin.1
            cases hb : t0.completed
            · rfl
            · rw [hb] at hq
              simp at hq
          · obtain ⟨h1, h2⟩ := (hiff t).mp hm2
            exact ⟨List.mem_cons_of_mem _ h1, h2⟩
        · rintro ⟨hm, hrest⟩
          rcases List.mem_cons.mp hm with he | hm2
          · subst he
            exact List.mem_cons_self _ _
          · exact List.mem_cons_of_mem _ ((hiff t).mpr ⟨hm2, hrest⟩)
      · refine ⟨res, by rw [if_neg hin], ?_⟩
        intro t
        rw [hiff t]
        constructor
        · rintro ⟨h1, h2⟩
          exact ⟨List.mem_cons_of_mem _ h1, h2⟩
        · rintro ⟨hm, hP⟩
          rcases List.mem_cons.mp hm with he | hm2
          · subst he
            rcases hP with ⟨hc2, ca2, cd2, hcat2, hne2, hd2, hin1, hin2⟩ |
              ⟨hc2, cd2, hd2, hin1, hin2⟩
            · exact absurd (Bool.and_eq_true_iff.mpr
                ⟨hc2, (truthyStr_iff _).mpr ⟨ca2, hcat2, hne2⟩⟩) hcomp
            · rw [hcr] at hd2
              have hde := Option.some.inj hd2
              rw [← hde] at hin1 hin2
              refine absurd ⟨?_, hin1, hin2⟩ hin
              rw [hc2]
              rfl
          · exact ⟨hm2, hP⟩

end Pulse

namespace Pulse

/-! ## Month interval, ISO parsing and month-shift lemmas -/

theorem fromisoDate_inRange {s : String} {d : Date}
    (h : fromisoDate s = some d) : d.InRange := by
  have he : fromisoDate s = parseDate (String.mk (s.data.take 10)) := rfl
  rw [he] at h
  exact parseDate_inRange h

theorem month_interval_iff (today d : Date) (ht : today.Valid) (hd : d.Valid) :
    (dateLe ⟨today.year, today.month, 1⟩ d ∧
      dateLe d ⟨today.year, today.month, daysInMonth today.year today.month⟩) ↔
    (d.year = today.year ∧ d.month = today.month) := by
  obtain ⟨ty, tm, td⟩ := today
  obtain ⟨dy, dm, dd⟩ := d
  obtain ⟨ht1, ht2, ht3, ht4⟩ := ht
  obtain ⟨hd1, hd2, hd3, hd4⟩ := hd
  dsimp only at *
  unfold dateLe
  dsimp only
  constructor
  · intro h
    omega
  · rintro ⟨hy, hm⟩
    subst hy hm
    omega

theorem normMonthUp_spec (y m : Int) :
    12 * (normMonthUp y m).1 + (normMonthUp y m).2 = 12 * y + m ∧
      (normMonthUp y m).2 ≤ 12 := by
  have H : ∀ k : Nat, ∀ y m : Int, (m - 12).toNat ≤ k →
      12 * (normMonthUp y m).1 + (normMonthUp y m).2 = 12 * y + m ∧
        (normMonthUp y m).2 ≤ 12 := by
    intro k
    induction k with
    | zero =>
      intro y m hle
      have hc : ¬ 12 < m := by omega
      have hstep : normMonthUp y m = (y, m) := by
        conv_lhs => rw [normMonthUp]
        rw [if_neg hc]
      rw [hstep]
      dsimp only
      omega
    | succ k ih =>
      intro y m hle
      by_cases hc : 12 < m
      · have hstep : normMonthUp y m = normMonthUp (y + 1) (m - 12) := by
          conv_lhs => rw [normMonthUp]
          rw [if_pos hc]
        rw [hstep]
        have := ih (y + 1) (m - 12) (by omega)
        omega
      · have hstep : normMonthUp y m = (y, m) := by
          conv_lhs => rw [normMonthUp]
          rw [if_neg hc]
        rw [hstep]
        dsimp only
        omega
  exact H (m - 12).toNat y m (le_refl _)

theorem normMonthDown_spec (y m : Int) (hm : m ≤ 12) :
    12 * (normMonthDown y m).1 + (normMonthDown y m).2 = 12 * y + m ∧
      1 ≤ (normMonthDown y m).2 ∧ (normMonthDown y m).2 ≤ 12 := by
  have H : ∀ k : Nat, ∀ y m : Int, m ≤ 12 → (1 - m).toNat ≤ k →
      12 * (normMonthDown y m).1 + (normMonthDown y m).2 = 12 * y + m ∧
        1 ≤ (normMonthDown y m).2 ∧ (normMonthDown y m).2 ≤ 12 := by
    intro k
    induction k with
    | zero =>
      intro y m hm hle
      have hc : ¬ m < 1 := by omega
      have hstep : normMonthDown y m = (y, m) := by
        conv_lhs => rw [normMonthDown]
        rw [if_neg hc]
      rw [hstep]
      dsimp only
      omega
    | succ k ih =>
      intro y m hm hle
      by_cases hc : m < 1
      · have hstep : normMonthDown y m = normMonthDown (y - 1) (m + 12) := by
          conv_lhs => rw [normMonthDown]
          rw [if_pos hc]
        rw [hstep]
        have := ih (y - 1) (m + 12) (by omega) (by omega)
        omega
      · have hstep : normMonthDown y m = (y, m) := by
          conv_lhs => rw [normMonthDown]
          rw [if_neg hc]
        rw [hstep]
        dsimp only
        omega
  exact H (1 - m).toNat y m hm (le_refl _)

theorem mkDate_first (y m : Int) (h1 : 1 ≤ m) (h2 : m ≤ 12) :
    mkDate y m 1 = if 1 ≤ y ∧ y ≤ 9999 then some ⟨y, m, 1⟩ else none := by
  unfold mkDate
  have hb := daysInMonth_bounds y m h1 h2
  by_cases hy : 1 ≤ y ∧ y ≤ 9999
  · rw [if_pos ⟨hy.1, hy.2, h1, h2, by omega, by omega⟩, if_pos hy]
  · rw [if_neg ?_, if_neg hy]
    intro hfull
    exact hy ⟨hfull.1, hfull.2.1⟩

theorem shift_month_eq (d : Date) (delta : Int) :
    shift_month d delta =
      mkDate (normMonthDown (normMonthUp d.year (d.month + delta)).1
          (normMonthUp d.year (d.month + delta)).2).1
        (normMonthDown (normMonthUp d.year (d.month + delta)).1
          (normMonthUp d.year (d.month + delta)).2).2 1 := by
  unfold shift_month
  rfl

end Pulse

namespace Pulse

/-! ## Claim theorems -/

/-- C1: `compute_current_streak` returns exactly the count of the Policy B
walk: starting at `today`, or at `today - 1 day` when `today` is not a key
of the log, the result is `n` precisely when the first `n` days walking
backward are marked `"succeeded"` and the day after them is not (absent or
marked otherwise).  The bound keeps the walk clear of the `date.min`
overflow edge. -/
theorem c1_current_streak_policyB (log : List (String × String))
    (today : Date) (n : Nat) (hbound : (n : Int) + 2 ≤ toOrd today) :
    compute_current_streak log today = some n ↔
      ((∀ i, i < n → succeededOn log (predIter i (streakStart log today))) ∧
        ¬ succeededOn log (predIter n (streakStart log today))) := by
  rw [compute_current_streak_eq]
  by_cases hin : (lookupLog log (dateToString today)).isSome
  · rw [if_pos hin]
    constructor
    · exact streakWalk_spec (toOrd today).toNat (streakStart log today) n
    · rintro ⟨h1, h2⟩
      exact streakWalk_complete n (toOrd today).toNat (streakStart log today)
        (by omega) h1 h2
  · rw [if_neg hin]
    constructor
    · exact streakWalk_spec (toOrd today - 1).toNat (streakStart log today) n
    · rintro ⟨h1, h2⟩
      exact streakWalk_complete n (toOrd today - 1).toNat
        (streakStart log today) (by omega) h1 h2

theorem c1_witness :
    ((1 : Int) + 2 ≤ toOrd ⟨1, 1, 5⟩) ∧
      (compute_current_streak [("0001-01-04", "succeeded")] ⟨1, 1, 5⟩ =
          some 1 ↔
        ((∀ i, i < 1 → succeededOn [("0001-01-04", "succeeded")]
            (predIter i (streakStart [("0001-01-04", "succeeded")] ⟨1, 1, 5⟩))) ∧
          ¬ succeededOn [("0001-01-04", "succeeded")]
            (predIter 1 (streakStart [("0001-01-04", "succeeded")] ⟨1, 1, 5⟩)))) :=
  ⟨by decide, c1_current_streak_policyB [("0001-01-04", "succeeded")]
    ⟨1, 1, 5⟩ 1 (by decide)⟩

/-- C3: the spec requires malformed date keys to be skipped without
crashing, but `compute_longest_streak` runs `strptime` on every key with
no exception handling, so a single malformed key such as `"garbage"`
raises `ValueError` (modelled as `none`); `compute_current_streak` never
parses keys and indeed completes. -/
theorem c3_malformed_key_crash :
    parseDate "garbage" = none ∧
    compute_longest_streak [("garbage", "succeeded")] ⟨1, 1, 5⟩ = none ∧
    compute_current_streak [("garbage", "succeeded")] ⟨1, 1, 5⟩ = some 0 := by
  refine ⟨by decide, by decide, by decide⟩

/-- C6 counterexample: `shift_month` is not total for every integer
`delta`: a delta reaching year 0 makes `datetime.date` raise
`ValueError` (modelled as `none`): `12 * 2024 + 1 - 24289 = 0` falls in
month 12 of year -1. -/
theorem c6_counterexample : shift_month ⟨2024, 1, 1⟩ (-24289) = none := by
  rw [shift_month_eq]
  dsimp only
  obtain ⟨hu1, hu2⟩ := normMonthUp_spec 2024 (1 + (-24289))
  obtain ⟨hd1, hd2, hd3⟩ := normMonthDown_spec
    (normMonthUp 2024 (1 + (-24289))).1 (normMonthUp 2024 (1 + (-24289))).2 hu2
  rw [mkDate_first _ _ hd2 hd3]
  rw [if_neg ?_]
  omega

/-- C6 amended: `shift_month` always terminates; writing the target month
as the unique `(y, m)` with `12 * y + m = 12 * year + month + delta` and
`1 ≤ m ≤ 12`, it returns the first day of that month whenever `y` is
within `datetime`'s supported range `1..9999`, and raises `ValueError`
(`none`) otherwise. -/
theorem c6_amended_shift_month (d : Date) (delta : Int) :
    ∃ y m : Int, 12 * y + m = 12 * d.year + d.month + delta ∧
      1 ≤ m ∧ m ≤ 12 ∧
      shift_month d delta =
        (if 1 ≤ y ∧ y ≤ 9999 then some ⟨y, m, 1⟩ else none) := by
  obtain ⟨hu1, hu2⟩ := normMonthUp_spec d.year (d.month + delta)
  obtain ⟨hd1, hd2, hd3⟩ := normMonthDown_spec
    (normMonthUp d.year (d.month + delta)).1
    (normMonthUp d.year (d.month + delta)).2 hu2
  refine ⟨(normMonthDown (normMonthUp d.year (d.month + delta)).1
      (normMonthUp d.year (d.month + delta)).2).1,
    (normMonthDown (normMonthUp d.year (d.month + delta)).1
      (normMonthUp d.year (d.month + delta)).2).2, by omega, hd2, hd3, ?_⟩
  rw [shift_month_eq, mkDate_first _ _ hd2 hd3]

/-! ## Lemmas about binary64 rounding -/

theorem rneRat_le (x : Rat) : (rneRat x : Rat) ≤ x + 1 / 2 := by
  have hfl : (⌊x⌋ : Rat) ≤ x := Int.floor_le x
  have hfu : x < (⌊x⌋ : Rat) + 1 := Int.lt_floor_add_one x
  unfold rneRat
  split_ifs with h1 h2 h3
  · push_cast
    linarith
  · push_cast
    linarith
  · push_cast
    linarith
  · push_cast
    linarith

theorem rneRat_ge (x : Rat) : x - 1 / 2 ≤ (rneRat x : Rat) := by
  have hfl : (⌊x⌋ : Rat) ≤ x := Int.floor_le x
  have hfu : x < (⌊x⌋ : Rat) + 1 := Int.lt_floor_add_one x
  unfold rneRat
  split_ifs with h1 h2 h3
  · push_cast
    linarith
  · push_cast
    linarith
  · push_cast
    linarith
  · push_cast
    linarith

theorem rneRat_mono {x y : Rat} (h : x ≤ y) : rneRat x ≤ rneRat y := by
  by_contra hc
  push_neg at hc
  have h1 := rneRat_le x
  have h2 := rneRat_ge y
  have h3 : (rneRat y : Rat) + 1 ≤ (rneRat x : Rat) := by
    have h4 : rneRat y + 1 ≤ rneRat x := Int.lt_iff_add_one_le.mp hc
    exact_mod_cast h4
  have hxy : x = y := le_antisymm h (by linarith)
  subst hxy
  omega

theorem floatExp_eq {q : Rat} (hn : 1 / 7 ≤ q) :
    floatExp q = Int.log 2 q - 52 := by
  have hc2 : ((2 : Nat) : Rat) = 2 := by norm_num
  have h8 : ((2 : Nat) : Rat) ^ (-(3 : Int)) ≤ q := by
    rw [hc2]
    have he : (2 : Rat) ^ (-(3 : Int)) = 1 / 8 := by norm_num
    rw [he]
    linarith
  have h0 : (0 : Rat) < ((2 : Nat) : Rat) ^ (-(3 : Int)) := by
    rw [hc2]
    positivity
  have hlb : -3 ≤ Int.log 2 q := by
    have h1 : Int.log 2 (((2 : Nat) : Rat) ^ (-(3 : Int))) ≤ Int.log 2 q :=
      Int.log_mono_right h0 h8
    rw [Int.log_zpow (by norm_num : (1 : Nat) < 2) (-3)] at h1
    exact h1
  unfold floatExp
  omega

theorem zpow_floatExp_le {q : Rat} (hn : 1 / 7 ≤ q) :
    (2 : Rat) ^ floatExp q ≤ q := by
  have hq0 : (0 : Rat) < q := lt_of_lt_of_le (by norm_num) hn
  have h1 : ((2 : Nat) : Rat) ^ Int.log 2 q ≤ q :=
    Int.zpow_log_le_self (by norm_num) hq0
  have hc2 : ((2 : Nat) : Rat) = 2 := by norm_num
  rw [hc2] at h1
  refine le_trans ?_ h1
  apply zpow_le_zpow_right₀ (by norm_num)
  rw [floatExp_eq hn]
  omega

theorem lt_zpow_floatExp {q : Rat} (hn : 1 / 7 ≤ q) :
    q < (2 : Rat) ^ (floatExp q + 53) := by
  have h1 : q < ((2 : Nat) : Rat) ^ (Int.log 2 q + 1) :=
    Int.lt_zpow_succ_log_self (by norm_num) q
  have hc2 : ((2 : Nat) : Rat) = 2 := by norm_num
  rw [hc2] at h1
  refine lt_of_lt_of_le h1 ?_
  apply zpow_le_zpow_right₀ (by norm_num)
  rw [floatExp_eq hn]
  omega

/-- One binary64 rounding moves a value in the normal range by less than
half a unit in the last place; in particular the result stays within a
factor of two of the exact value. -/
theorem rndVal_bounds {q : Rat} (hn : 1 / 7 ≤ q) :
    q / 2 ≤ rndVal q ∧ rndVal q ≤ 2 * q := by
  have hp : (0 : Rat) < (2 : Rat) ^ floatExp q := zpow_pos (by norm_num) _
  have hne : (2 : Rat) ^ floatExp q ≠ 0 := ne_of_gt hp
  have hle := rneRat_le (q / 2 ^ floatExp q)
  have hge := rneRat_ge (q / 2 ^ floatExp q)
  have hsc := zpow_floatExp_le hn
  unfold rndVal
  constructor
  · have h1 : (q / 2 ^ floatExp q - 1 / 2) * 2 ^ floatExp q ≤
        (rneRat (q / 2 ^ floatExp q) : Rat) * 2 ^ floatExp q :=
      mul_le_mul_of_nonneg_right hge (le_of_lt hp)
    have h2 : (q / 2 ^ floatExp q - 1 / 2) * 2 ^ floatExp q =
        q - 2 ^ floatExp q / 2 := by
      rw [sub_mul, div_mul_cancel₀ _ hne]
      ring
    rw [h2] at h1
    linarith
  · have h1 : (rneRat (q / 2 ^ floatExp q) : Rat) * 2 ^ floatExp q ≤
        (q / 2 ^ floatExp q + 1 / 2) * 2 ^ floatExp q :=
      mul_le_mul_of_nonneg_right hle (le_of_lt hp)
    have h2 : (q / 2 ^ floatExp q + 1 / 2) * 2 ^ floatExp q =
        q + 2 ^ floatExp q / 2 := by
      rw [add_mul, div_mul_cancel₀ _ hne]
      ring
    rw [h2] at h1
    linarith

/-- Binary64 rounding is monotone on the normal range: within one binade
the rounded significand is monotone, and across binades the largest value
of the lower binade never exceeds the smallest of the higher one. -/
theorem rndVal_mono {a b : Rat} (ha : 1 / 7 ≤ a) (hab : a ≤ b) :
    rndVal a ≤ rndVal b := by
  have hb : (1 : Rat) / 7 ≤ b := le_trans ha hab
  have ha0 : (0 : Rat) < a := lt_of_lt_of_le (by norm_num) ha
  have hb0 : (0 : Rat) < b := lt_of_lt_of_le (by norm_num) hb
  have hpa : (0 : Rat) < (2 : Rat) ^ floatExp a := zpow_pos (by norm_num) _
  have hpb : (0 : Rat) < (2 : Rat) ^ floatExp b := zpow_pos (by norm_num) _
  have hee : floatExp a ≤ floatExp b := by
    have h1 : Int.log 2 a ≤ Int.log 2 b := Int.log_mono_right ha0 hab
    unfold floatExp
    omega
  rcases eq_or_lt_of_le hee with heq | hlt
  · unfold rndVal
    rw [← heq]
    have hdiv : a / 2 ^ floatExp a ≤ b / 2 ^ floatExp a := by gcongr
    have hmq : (rneRat (a / 2 ^ floatExp a) : Rat) ≤
        (rneRat (b / 2 ^ floatExp a) : Rat) := by
      exact_mod_cast rneRat_mono hdiv
    exact mul_le_mul_of_nonneg_right hmq (le_of_lt hpa)
  · have hub := lt_zpow_floatExp ha
    have hsplit53 : (2 : Rat) ^ (floatExp a + 53) =
        2 ^ floatExp a * 9007199254740992 := by
      rw [zpow_add₀ (two_ne_zero) (floatExp a) 53]
      norm_num
    have hdq : a / 2 ^ floatExp a < 9007199254740992 := by
      rw [div_lt_iff hpa]
      rw [hsplit53] at hub
      linarith
    have h3 : (rneRat (a / 2 ^ floatExp a) : Rat) <
        9007199254740992 + 1 := by
      have := rneRat_le (a / 2 ^ floatExp a)
      linarith
    have h4 : rneRat (a / 2 ^ floatExp a) < 9007199254740992 + 1 := by
      exact_mod_cast h3
    have hma : (rneRat (a / 2 ^ floatExp a) : Rat) ≤ 9007199254740992 := by
      have h5 : rneRat (a / 2 ^ floatExp a) ≤ 9007199254740992 := by omega
      exact_mod_cast h5
    have hlb2 : (2 : Rat) ^ (floatExp b + 52) ≤ b := by
      have h1 : ((2 : Nat) : Rat) ^ Int.log 2 b ≤ b :=
        Int.zpow_log_le_self (by norm_num) hb0
      have hc2 : ((2 : Nat) : Rat) = 2 := by norm_num
      rw [hc2] at h1
      refine le_trans ?_ h1
      apply zpow_le_zpow_right₀ (by norm_num)
      rw [floatExp_eq hb]
      omega
    have hsplit52 : (2 : Rat) ^ (floatExp b + 52) =
        2 ^ floatExp b * 4503599627370496 := by
      rw [zpow_add₀ (two_ne_zero) (floatExp b) 52]
      norm_num
    have hdq2 : (4503599627370496 : Rat) ≤ b / 2 ^ floatExp b := by
      rw [le_div_iff hpb]
      rw [hsplit52] at hlb2
      linarith
    have h6 : (4503599627370496 : Rat) - 1 <
        (rneRat (b / 2 ^ floatExp b) : Rat) := by
      have := rneRat_ge (b / 2 ^ floatExp b)
      linarith
    have h7 : (4503599627370496 : Int) - 1 < rneRat (b / 2 ^ floatExp b) := by
      exact_mod_cast h6
    have hmb : (4503599627370496 : Rat) ≤
        (rneRat (b / 2 ^ floatExp b) : Rat) := by
      have h8 : (4503599627370496 : Int) ≤ rneRat (b / 2 ^ floatExp b) := by
        omega
      exact_mod_cast h8
    have hstep : (9007199254740992 : Rat) * 2 ^ floatExp a ≤
        4503599627370496 * 2 ^ floatExp b := by
      have h9 : (9007199254740992 : Rat) = 4503599627370496 * 2 := by
        norm_num
      rw [h9, mul_assoc]
      refine mul_le_mul_of_nonneg_left ?_ (by norm_num)
      have h10 : (2 : Rat) * 2 ^ floatExp a = 2 ^ (floatExp a + 1) := by
        rw [zpow_add₀ (two_ne_zero) (floatExp a) 1, zpow_one, mul_comm]
      rw [h10]
      apply zpow_le_zpow_right₀ (by norm_num)
      omega
    unfold rndVal
    calc (rneRat (a / 2 ^ floatExp a) : Rat) * 2 ^ floatExp a
        ≤ 9007199254740992 * 2 ^ floatExp a :=
          mul_le_mul_of_nonneg_right hma (le_of_lt hpa)
      _ ≤ 4503599627370496 * 2 ^ floatExp b := hstep
      _ ≤ (rneRat (b / 2 ^ floatExp b) : Rat) * 2 ^ floatExp b :=
          mul_le_mul_of_nonneg_right hmb (le_of_lt hpb)

theorem roundFloatPos_eq {q : Rat} (hn : 1 / 7 ≤ q)
    (hub : q ≤ (2 : Rat) ^ (1022 : Nat)) :
    roundFloatPos q = some (rndVal q) := by
  have hlt : rndVal q < (2 : Rat) ^ (1024 : Nat) := by
    have hb := (rndVal_bounds hn).2
    have h2 : (2 : Rat) * (2 : Rat) ^ (1022 : Nat) < (2 : Rat) ^ (1024 : Nat) := by
      norm_num
    calc rndVal q ≤ 2 * q := hb
      _ ≤ 2 * 2 ^ (1022 : Nat) := by linarith
      _ < 2 ^ (1024 : Nat) := h2
  unfold roundFloatPos
  rw [if_pos hlt]

theorem roundFloat_pos_eq {q : Rat} (hn : 1 / 7 ≤ q)
    (hub : q ≤ (2 : Rat) ^ (1022 : Nat)) :
    roundFloat q = some (rndVal q) := by
  have hq0 : (0 : Rat) < q := lt_of_lt_of_le (by norm_num) hn
  unfold roundFloat
  rw [if_neg hq0.ne', if_pos hq0]
  exact roundFloatPos_eq hn hub

/-- C8: the derived monthly goal `int(weekly_goal / 7 * num_days)` is
monotone in the month length under faithful binary64 float semantics: for
weekly goals `1 ≤ g ≤ 2 ^ 1000` (the bound keeps every intermediate float
finite — `int()` of an infinite float raises `OverflowError`, and no real
goal approaches `2 ^ 1000`), both derived goals exist and a 31-day month
never gets a smaller one than a 28-day month, because every rounding step
of the float computation is monotone. -/
theorem c8_goal_scaling_monotone (g : Int) (hg : 1 ≤ g)
    (hub : g ≤ 2 ^ 1000) :
    ∃ a b, monthly_goal g 28 = some a ∧ monthly_goal g 31 = some b ∧
      a ≤ b := by
  have hg1 : (1 : Rat) ≤ (g : Rat) := by exact_mod_cast hg
  have hgu : (g : Rat) ≤ 2 ^ (1000 : Nat) := by exact_mod_cast hub
  have hq_lb : (1 : Rat) / 7 ≤ (g : Rat) / 7 := by linarith
  have hq_ub : (g : Rat) / 7 ≤ 2 ^ (1022 : Nat) := by
    have h1 : (g : Rat) / 7 ≤ (g : Rat) :=
      div_le_self (by linarith) (by norm_num)
    have h2 : (2 : Rat) ^ (1000 : Nat) ≤ 2 ^ (1022 : Nat) := by norm_num
    linarith
  have hx := roundFloat_pos_eq hq_lb hq_ub
  have hxb := rndVal_bounds hq_lb
  have hx_lb : (1 : Rat) / 14 ≤ rndVal ((g : Rat) / 7) := by
    have := hxb.1
    linarith
  have hx_ub : rndVal ((g : Rat) / 7) ≤ 2 ^ (1001 : Nat) := by
    have h0 := hxb.2
    have h1 : (g : Rat) / 7 ≤ (g : Rat) :=
      div_le_self (by linarith) (by norm_num)
    have h3 : (2 : Rat) * 2 ^ (1000 : Nat) = 2 ^ (1001 : Nat) := by norm_num
    linarith
  have h28_lb : (1 : Rat) / 7 ≤ rndVal ((g : Rat) / 7) * 28 := by linarith
  have h31_lb : (1 : Rat) / 7 ≤ rndVal ((g : Rat) / 7) * 31 := by linarith
  have h28_ub : rndVal ((g : Rat) / 7) * 28 ≤ 2 ^ (1022 : Nat) := by
    have h2 : (2 : Rat) ^ (1001 : Nat) * 28 ≤ 2 ^ (1022 : Nat) := by norm_num
    linarith
  have h31_ub : rndVal ((g : Rat) / 7) * 31 ≤ 2 ^ (1022 : Nat) := by
    have h2 : (2 : Rat) ^ (1001 : Nat) * 31 ≤ 2 ^ (1022 : Nat) := by norm_num
    linarith
  have hy28 := roundFloat_pos_eq h28_lb h28_ub
  have hy31 := roundFloat_pos_eq h31_lb h31_ub
  have hy28b := rndVal_bounds h28_lb
  have hy31b := rndVal_bounds h31_lb
  have hy28nn : (0 : Rat) ≤ rndVal (rndVal ((g : Rat) / 7) * 28) := by
    have := hy28b.1
    linarith
  have hy31nn : (0 : Rat) ≤ rndVal (rndVal ((g : Rat) / 7) * 31) := by
    have := hy31b.1
    linarith
  have hmono : rndVal (rndVal ((g : Rat) / 7) * 28) ≤
      rndVal (rndVal ((g : Rat) / 7) * 31) := by
    apply rndVal_mono h28_lb
    have h0 : (0 : Rat) ≤ rndVal ((g : Rat) / 7) := by linarith
    exact mul_le_mul_of_nonneg_left (by norm_num) h0
  have hc28 : ((28 : Int) : Rat) = 28 := by norm_num
  have hc31 : ((31 : Int) : Rat) = 31 := by norm_num
  refine ⟨⌊rndVal (rndVal ((g : Rat) / 7) * 28)⌋,
    ⌊rndVal (rndVal ((g : Rat) / 7) * 31)⌋, ?_, ?_, ?_⟩
  · simp only [monthly_goal, hx, hc28, hy28]
    rw [if_neg (not_lt.mpr hy28nn)]
  · simp only [monthly_goal, hx, hc31, hy31]
    rw [if_neg (not_lt.mpr hy31nn)]
  · exact Int.floor_mono hmono

end Pulse

namespace Pulse

/-- C7: on logs small enough that the walk cannot reach the `date.min`
overflow (`|log| + 2 ≤ toordinal(today)`), `compute_current_streak`
terminates with a value: the count is at most the number of log entries,
because every counted day is a distinct log key, and when the count is
positive the last counted day is itself a key of the log — so the walk
stops no later than the first day preceding the earliest key it can
consume. -/
theorem c7_termination_bound (log : List (String × String)) (today : Date)
    (hv : today.Valid) (h9 : today.year ≤ 9999)
    (hlen : (log.length : Int) + 2 ≤ toOrd today) :
    ∃ n, compute_current_streak log today = some n ∧ n ≤ log.length ∧
      (1 ≤ n → ∃ k v, (k, v) ∈ log ∧
        parseDate k = some (predIter (n - 1) (streakStart log today))) := by
  rw [compute_current_streak_eq]
  have hsv : (streakStart log today).Valid := by
    unfold streakStart
    split_ifs
    · exact hv
    · exact predDay_valid today hv
  have hs9 : (streakStart log today).year ≤ 9999 := by
    unfold streakStart
    split_ifs
    · exact h9
    · have hvp := predDay_valid today hv
      have hop := toOrd_predDay today hv
      have := dateYear_le_of_ord_le hvp hv (by omega)
      omega
  set fuel := if (lookupLog log (dateToString today)).isSome then
    (toOrd today).toNat else (toOrd today - 1).toNat with hfuel
  have hfb : (log.length : Int) + 1 ≤ (fuel : Int) ∧
      (fuel : Int) ≤ toOrd (streakStart log today) := by
    rw [hfuel]
    unfold streakStart
    by_cases hin : (lookupLog log (dateToString today)).isSome
    · rw [if_pos hin, if_pos hin]
      constructor <;> omega
    · rw [if_neg hin, if_neg hin]
      rw [toOrd_predDay today hv]
      constructor <;> omega
  cases hno : streakWalkFuel log fuel (streakStart log today) with
  | none =>
    exfalso
    have hrun := streakWalk_none fuel (streakStart log today) hno
    have := run_keys_count hsv hs9 hfb.2 hrun
    omega
  | some n =>
    have hnf := streakWalkFuel_le fuel (streakStart log today) n hno
    have hrun := (streakWalk_spec fuel (streakStart log today) n hno).1
    have hnb : (n : Int) ≤ toOrd (streakStart log today) := by
      have := hfb.2
      omega
    have hcount := run_keys_count hsv hs9 hnb hrun
    refine ⟨n, rfl, hcount, ?_⟩
    intro hn1
    have hlast := hrun (n - 1) (by omega)
    unfold succeededOn at hlast
    obtain ⟨hvl, hol⟩ := predIter_valid_ord (streakStart log today) hsv (n - 1)
    have hlr : (predIter (n - 1) (streakStart log today)).InRange := by
      refine ⟨hvl, ?_, ?_⟩
      · refine year_ge_one_of_ord _ hvl ?_
        omega
      · have := dateYear_le_of_ord_le hvl hsv (by omega)
        omega
    exact ⟨dateToString (predIter (n - 1) (streakStart log today)),
      "succeeded", lookupLog_mem hlast, parse_dateToString_inRange _ hlr⟩

theorem c7_witness :
    ((⟨1, 1, 5⟩ : Date).Valid ∧ (⟨1, 1, 5⟩ : Date).year ≤ 9999 ∧
      (([("0001-01-04", "succeeded")] : List (String × String)).length : Int) +
        2 ≤ toOrd ⟨1, 1, 5⟩) ∧
    (∃ n, compute_current_streak [("0001-01-04", "succeeded")] ⟨1, 1, 5⟩ =
        some n ∧ n ≤ ([("0001-01-04", "succeeded")] :
          List (String × String)).length ∧
      (1 ≤ n → ∃ k v, (k, v) ∈ [("0001-01-04", "succeeded")] ∧
        parseDate k = some (predIter (n - 1)
          (streakStart [("0001-01-04", "succeeded")] ⟨1, 1, 5⟩)))) :=
  ⟨⟨by decide, by decide, by decide⟩,
    c7_termination_bound [("0001-01-04", "succeeded")] ⟨1, 1, 5⟩
      (by decide) (by decide) (by decide)⟩

/-- C9: the two source revisions of `compute_current_streak` are
extensionally equal on every valid reference date: both implement the
lenient-today policy. -/
theorem c9_revisions_equal (log : List (String × String)) (today : Date)
    (hv : today.Valid) :
    compute_current_streak log today = pages_compute_current_streak log today :=
  (pages_eq_main_current_streak log today hv).symm

theorem c9_witness :
    (⟨1, 1, 5⟩ : Date).Valid ∧
    compute_current_streak [("0001-01-04", "succeeded")] ⟨1, 1, 5⟩ =
      pages_compute_current_streak [("0001-01-04", "succeeded")] ⟨1, 1, 5⟩ :=
  ⟨by decide, c9_revisions_equal [("0001-01-04", "succeeded")] ⟨1, 1, 5⟩
    (by decide)⟩

/-- C10: a future-dated entry never changes `compute_current_streak`: for
a representable `today`, a well-formed key `k` strictly after `today`, any
value `v`, and a log not containing `k`, the walk over `(k, v) :: log`
returns the same result as over `log`. -/
theorem c10_future_entries_irrelevant (log : List (String × String))
    (today : Date) (k v : String) (kd : Date) (ht : today.InRange)
    (hp : parseDate k = some kd) (hgt : dateLt today kd)
    (habs : lookupLog log k = none) :
    compute_current_streak ((k, v) :: log) today =
      compute_current_streak log today := by
  have hkd := parseDate_inRange hp
  have hto1 : 1 ≤ toOrd today := toOrd_ge_one today ht.1 ht.2.1
  have hne : ¬ k = dateToString today := by
    intro he
    have hde : today = kd :=
      de_of_parse_toString hp ht.1 (by have := ht.2.1; omega) ht.2.2 he.symm
    have hlt := toOrd_lt_of_dateLt ht.1 hkd.1 hgt
    rw [← hde] at hlt
    omega
  have hlk : lookupLog ((k, v) :: log) (dateToString today) =
      lookupLog log (dateToString today) := by
    show (if k = dateToString today then some v else
      lookupLog log (dateToString today)) = lookupLog log (dateToString today)
    rw [if_neg hne]
  unfold compute_current_streak
  rw [hlk]
  by_cases hin : (lookupLog log (dateToString today)).isSome
  · rw [if_pos hin, if_pos hin]
    exact streakWalk_future_congr hp ht hgt (toOrd today).toNat today ht.1
      (le_refl _) (by omega)
  · rw [if_neg hin, if_neg hin]
    have hvp := predDay_valid today ht.1
    have hop := toOrd_predDay today ht.1
    exact streakWalk_future_congr hp ht hgt (toOrd today - 1).toNat
      (predDay today) hvp (by omega) (by omega)

theorem c10_witness :
    ((⟨1, 1, 5⟩ : Date).InRange ∧ parseDate "0001-01-07" = some ⟨1, 1, 7⟩ ∧
      dateLt ⟨1, 1, 5⟩ ⟨1, 1, 7⟩ ∧
      lookupLog [("0001-01-04", "succeeded")] "0001-01-07" = none) ∧
    compute_current_streak
        (("0001-01-07", "succeeded") :: [("0001-01-04", "succeeded")])
        ⟨1, 1, 5⟩ =
      compute_current_streak [("0001-01-04", "succeeded")] ⟨1, 1, 5⟩ :=
  ⟨⟨by decide, by decide, by decide, by decide⟩,
    c10_future_entries_irrelevant [("0001-01-04", "succeeded")] ⟨1, 1, 5⟩
      "0001-01-07" "succeeded" ⟨1, 1, 7⟩ (by decide) (by decide) (by decide)
      (by decide)⟩

end Pulse

namespace Pulse

theorem c8_witness :
    ((1 : Int) ≤ 7 ∧ (7 : Int) ≤ 2 ^ 1000) ∧
    ∃ a b, monthly_goal 7 28 = some a ∧ monthly_goal 7 31 = some b ∧
      a ≤ b :=
  ⟨⟨by norm_num, by norm_num⟩,
    c8_goal_scaling_monotone 7 (by norm_num) (by norm_num)⟩

/-- C2 counterexample: with the single canonical key `"9999-12-30"`
marked `"succeeded"` and `today = 9999-12-31` (= `date.max`), a
qualifying entry dated on or before `today` exists, yet
`compute_longest_streak` returns no length at all: the scan's trailing
`d += datetime.timedelta(days=1)` raises `OverflowError` past `date.max`
(`none`), refuting the claim's unconditional return of the longest run
length for well-formed logs. -/
theorem c2_counterexample :
    compute_longest_streak [("9999-12-30", "succeeded")] ⟨9999, 12, 31⟩ =
      none ∧
    dateToString ⟨9999, 12, 30⟩ = "9999-12-30" ∧
    (⟨9999, 12, 30⟩ : Date).InRange ∧ (⟨9999, 12, 31⟩ : Date).InRange ∧
    dateLe ⟨9999, 12, 30⟩ ⟨9999, 12, 31⟩ ∧
    succeededOn [("9999-12-30", "succeeded")] ⟨9999, 12, 30⟩ := by
  refine ⟨by decide, by decide, by decide, by decide, by decide, by decide⟩

/-- C2 (amended): for a log whose keys are all canonical `YYYY-MM-DD`
renderings of representable dates and a `today` strictly before
`date.max` = 9999-12-31 (at `date.max` itself the scan raises
`OverflowError` whenever a qualifying entry exists, see the
counterexample), `compute_longest_streak` returns a value `L` such that:
if no entry is dated on or before `today` then `L = 0`; otherwise `L` is
witnessed by a run of `L` consecutive `"succeeded"` days ending at a date
`≤ today` (so entries after `today` contribute nothing), and no run of
consecutive `"succeeded"` days ending at a date `≤ today` is longer than
`L`. -/
theorem c2_longest_streak_window (log : List (String × String))
    (today : Date)
    (hwf : ∀ p, p ∈ log → ∃ kd, kd.InRange ∧ dateToString kd = p.1)
    (ht : today.InRange) (hmax : toOrd today < 3652059) :
    ∃ L, compute_longest_streak log today = some L ∧
      ((¬ ∃ k v kd, (k, v) ∈ log ∧ parseDate k = some kd ∧ dateLe kd today) →
        L = 0) ∧
      (L = 0 ∨ ∃ e, e.InRange ∧ dateLe e today ∧
        ∀ i, i < L → succeededOn log (predIter i e)) ∧
      (∀ n e, e.InRange → dateLe e today →
        (∀ i, i < n → succeededOn log (predIter i e)) → n ≤ L) := by
  obtain ⟨ds, hds⟩ := parseKeys_some_of_wf log hwf
  obtain ⟨L, hL⟩ := longest_streak_isSome log today hwf ht hmax
  refine ⟨L, hL, ?_, longest_run_exists ht hL hds,
    fun n e he hle hrun => longest_run_le hwf ht hL he hle hrun⟩
  intro hnq
  rw [compute_longest_streak_eq log today ds hds] at hL
  cases hfil : ds.filter (fun x => decide (dateLe x today)) with
  | nil =>
    rw [hfil] at hL
    have hL2 : some 0 = some L := hL
    have := Option.some.inj hL2
    omega
  | cons e0 es =>
    exfalso
    have hmem : e0 ∈ ds.filter (fun x => decide (dateLe x today)) := by
      rw [hfil]
      exact List.mem_cons_self _ _
    have hmf := List.mem_filter.mp hmem
    obtain ⟨k0, v0, hk0, hp0⟩ := parseKeys_backward hds _ hmf.1
    refine hnq ⟨k0, v0, e0, hk0, hp0, ?_⟩
    have := hmf.2
    simpa using this

theorem c2_witness :
    ((∀ p, p ∈ [("0001-01-04", "succeeded")] →
        ∃ kd, Date.InRange kd ∧ dateToString kd = p.1) ∧
      (⟨1, 1, 5⟩ : Date).InRange ∧ toOrd ⟨1, 1, 5⟩ < 3652059) ∧
    (∃ L, compute_longest_streak [("0001-01-04", "succeeded")] ⟨1, 1, 5⟩ =
        some L ∧
      ((¬ ∃ k v kd, (k, v) ∈ [("0001-01-04", "succeeded")] ∧
          parseDate k = some kd ∧ dateLe kd ⟨1, 1, 5⟩) → L = 0) ∧
      (L = 0 ∨ ∃ e, e.InRange ∧ dateLe e ⟨1, 1, 5⟩ ∧
        ∀ i, i < L → succeededOn [("0001-01-04", "succeeded")] (predIter i e)) ∧
      (∀ n e, e.InRange → dateLe e ⟨1, 1, 5⟩ →
        (∀ i, i < n → succeededOn [("0001-01-04", "succeeded")]
          (predIter i e)) → n ≤ L)) :=
  ⟨⟨fun p hp => by
      have hq : p = ("0001-01-04", "succeeded") := by simpa using hp
      rw [hq]
      exact ⟨⟨1, 1, 4⟩, by decide, by decide⟩, by decide, by decide⟩,
    c2_longest_streak_window [("0001-01-04", "succeeded")] ⟨1, 1, 5⟩
      (fun p hp => by
        have hq : p = ("0001-01-04", "succeeded") := by simpa using hp
        rw [hq]
        exact ⟨⟨1, 1, 4⟩, by decide, by decide⟩) (by decide) (by decide)⟩

/-- C4 counterexample: at `today = 9999-12-31` (= `date.max`) with the
single well-formed entry `"9999-12-30" : "succeeded"`,
`compute_current_streak` completes with value `1` (its backward walk
never increments a date), but `compute_longest_streak` raises
`OverflowError` in the scan's trailing day-increment (`none`), so no
longest value exists to dominate the current one, and
`update_streaks_for_habit` propagates the exception instead of storing a
record. -/
theorem c4_counterexample :
    compute_current_streak [("9999-12-30", "succeeded")] ⟨9999, 12, 31⟩ =
      some 1 ∧
    compute_longest_streak [("9999-12-30", "succeeded")] ⟨9999, 12, 31⟩ =
      none ∧
    update_streaks_for_habit [("9999-12-30", "succeeded")] ⟨9999, 12, 31⟩ =
      none ∧
    dateToString ⟨9999, 12, 30⟩ = "9999-12-30" ∧
    (⟨9999, 12, 31⟩ : Date).InRange := by
  refine ⟨by decide, by decide, by decide, by decide, by decide⟩

/-- C4 (amended): for a well-formed log and representable `today`
strictly before `date.max` = 9999-12-31 (at `date.max` the longest-streak
scan raises `OverflowError` whenever a qualifying entry exists, see the
counterexample), whenever `compute_current_streak` completes with value
`c`, `compute_longest_streak` completes with a value `L ≥ c`;
consequently the `StreakRecord` built by `update_streaks_for_habit`
satisfies `longest ≥ current`. -/
theorem c4_longest_ge_current (log : List (String × String)) (today : Date)
    (hwf : ∀ p, p ∈ log → ∃ kd, kd.InRange ∧ dateToString kd = p.1)
    (ht : today.InRange) (hmax : toOrd today < 3652059) (c : Nat)
    (hc : compute_current_streak log today = some c) :
    ∃ L, compute_longest_streak log today = some L ∧ c ≤ L ∧
      ∀ rec, update_streaks_for_habit log today = some rec →
        rec.current ≤ rec.longest := by
  obtain ⟨L, hL⟩ := longest_streak_isSome log today hwf ht hmax
  have hcL : c ≤ L := by
    cases hcz : c with
    | zero => omega
    | succ N =>
      subst hcz
      rw [compute_current_streak_eq] at hc
      have hsv : (streakStart log today).Valid := by
        unfold streakStart
        split_ifs
        · exact ht.1
        · exact predDay_valid today ht.1
      have hto1 : 1 ≤ toOrd today := toOrd_ge_one today ht.1 ht.2.1
      have hfl := streakWalkFuel_le _ _ _ hc
      have hfpos : 1 ≤ (if (lookupLog log (dateToString today)).isSome then
          (toOrd today).toNat else (toOrd today - 1).toNat) := by omega
      have hos : toOrd (streakStart log today) ≤ toOrd today ∧
          1 ≤ toOrd (streakStart log today) := by
        unfold streakStart
        split_ifs at hfpos ⊢ with hin
        · omega
        · rw [toOrd_predDay today ht.1]
          omega
      have hsr : (streakStart log today).InRange := by
        refine ⟨hsv, year_ge_one_of_ord _ hsv hos.2, ?_⟩
        have := dateYear_le_of_ord_le hsv ht.1 hos.1
        have := ht.2.2
        omega
      have hsle : dateLe (streakStart log today) today :=
        (dateLe_iff_ord hsv ht.1).mpr hos.1
      have hrun := (streakWalk_spec _ _ _ hc).1
      exact longest_run_le hwf ht hL hsr hsle hrun
  refine ⟨L, hL, hcL, ?_⟩
  intro rec hrec
  unfold update_streaks_for_habit at hrec
  rw [hc, hL] at hrec
  have hrec2 : some (⟨c, L, dateToString today⟩ : StreakRecord) = some rec :=
    hrec
  have := Option.some.inj hrec2
  rw [← this]
  exact hcL

theorem c4_witness :
    ((∀ p, p ∈ [("0001-01-04", "succeeded")] →
        ∃ kd, Date.InRange kd ∧ dateToString kd = p.1) ∧
      (⟨1, 1, 5⟩ : Date).InRange ∧ toOrd ⟨1, 1, 5⟩ < 3652059 ∧
      compute_current_streak [("0001-01-04", "succeeded")] ⟨1, 1, 5⟩ =
        some 1) ∧
    (∃ L, compute_longest_streak [("0001-01-04", "succeeded")] ⟨1, 1, 5⟩ =
        some L ∧ 1 ≤ L ∧
      ∀ rec, update_streaks_for_habit [("0001-01-04", "succeeded")]
          ⟨1, 1, 5⟩ = some rec → rec.current ≤ rec.longest) :=
  ⟨⟨fun p hp => by
      have hq : p = ("0001-01-04", "succeeded") := by simpa using hp
      rw [hq]
      exact ⟨⟨1, 1, 4⟩, by decide, by decide⟩, by decide, by decide, by decide⟩,
    c4_longest_ge_current [("0001-01-04", "succeeded")] ⟨1, 1, 5⟩
      (fun p hp => by
        have hq : p = ("0001-01-04", "succeeded") := by simpa using hp
        rw [hq]
        exact ⟨⟨1, 1, 4⟩, by decide, by decide⟩) (by decide) (by decide) 1
      (by decide)⟩

end Pulse

namespace Pulse

/-- C5 counterexample: an incomplete task created on `today` is NOT in the
"Daily" filter result (the Daily branch keeps only completed tasks), so
the claimed creation-date rule fails for the Daily period. -/
theorem c5_counterexample :
    fromisoDate (Task.timestamp ⟨false, none, "0001-01-05"⟩) =
      some ⟨1, 1, 5⟩ ∧
    (Task.completed ⟨false, none, "0001-01-05"⟩) = false ∧
    filter_tasks_by_period [⟨false, none, "0001-01-05"⟩] "Daily" ⟨1, 1, 5⟩ =
      some [] := by
  refine ⟨by decide, rfl, by decide⟩

/-- Rewriting the month window `[first day, last day]` of `today`'s month
as "same year and month as `today`". -/
theorem monthly_window_iff (today : Date) (ht : today.Valid) (t : Task) :
    ((t.completed = true ∧ ∃ ca cd, t.completed_at = some ca ∧ ca ≠ "" ∧
        fromisoDate ca = some cd ∧
        dateLe ⟨today.year, today.month, 1⟩ cd ∧
        dateLe cd ⟨today.year, today.month,
          daysInMonth today.year today.month⟩) ∨
      (t.completed = false ∧ ∃ cd, fromisoDate t.timestamp = some cd ∧
        dateLe ⟨today.year, today.month, 1⟩ cd ∧
        dateLe cd ⟨today.year, today.month,
          daysInMonth today.year today.month⟩)) ↔
    ((t.completed = true ∧ ∃ ca cd, t.completed_at = some ca ∧ ca ≠ "" ∧
        fromisoDate ca = some cd ∧ cd.year = today.year ∧
        cd.month = today.month) ∨
      (t.completed = false ∧ ∃ cd, fromisoDate t.timestamp = some cd ∧
        cd.year = today.year ∧ cd.month = today.month)) := by
  constructor
  · rintro (⟨hc, ca, cd, h1, h2, h3, h4, h5⟩ | ⟨hc, cd, h1, h2, h3⟩)
    · have hcd := (fromisoDate_inRange h3).1
      exact Or.inl ⟨hc, ca, cd, h1, h2, h3,
        (month_interval_iff today cd ht hcd).mp ⟨h4, h5⟩⟩
    · have hcd := (fromisoDate_inRange h1).1
      exact Or.inr ⟨hc, cd, h1,
        (month_interval_iff today cd ht hcd).mp ⟨h2, h3⟩⟩
  · rintro (⟨hc, ca, cd, h1, h2, h3, h4⟩ | ⟨hc, cd, h1, h2⟩)
    · have hcd := (fromisoDate_inRange h3).1
      obtain ⟨hq1, hq2⟩ := (month_interval_iff today cd ht hcd).mpr h4
      exact Or.inl ⟨hc, ca, cd, h1, h2, h3, hq1, hq2⟩
    · have hcd := (fromisoDate_inRange h1).1
      obtain ⟨hq1, hq2⟩ := (month_interval_iff today cd ht hcd).mpr h2
      exact Or.inr ⟨hc, cd, h1, hq1, hq2⟩

/-- C5 amended: the actual period rules of `filter_tasks_by_period`.
"Weekly" and "Monthly" follow the claimed rule (a completed task belongs
to the period containing its completion date, an incomplete task to the
period containing its creation date; the week is the Monday-to-Sunday week
of `today`, the month is `today`'s calendar month); but "Daily" keeps only
tasks COMPLETED on `today` (an incomplete task created today is dropped),
and "Yearly" applies no date rule at all: it returns the whole list. -/
theorem c5_amended_filter_rules (tasks : List Task) (today : Date)
    (ht : today.Valid)
    (hts : ∀ t, t ∈ tasks → (fromisoDate t.timestamp).isSome)
    (hca : ∀ t, t ∈ tasks → t.completed = true → ∀ ca,
      t.completed_at = some ca → ca ≠ "" → (fromisoDate ca).isSome) :
    (∃ res, filter_tasks_by_period tasks "Daily" today = some res ∧
      ∀ t, t ∈ res ↔ (t ∈ tasks ∧ t.completed = true ∧
        ∃ ca d, t.completed_at = some ca ∧ ca ≠ "" ∧
          fromisoDate ca = some d ∧ d = today)) ∧
    (∃ res, filter_tasks_by_period tasks "Weekly" today = some res ∧
      ∀ t, t ∈ res ↔ (t ∈ tasks ∧
        ((t.completed = true ∧ ∃ ca cd, t.completed_at = some ca ∧
            ca ≠ "" ∧ fromisoDate ca = some cd ∧
            dateLe (predIter (weekday today) today) cd ∧
            dateLe cd (succIter 6 (predIter (weekday today) today))) ∨
          (t.completed = false ∧ ∃ cd, fromisoDate t.timestamp = some cd ∧
            dateLe (predIter (weekday today) today) cd ∧
            dateLe cd (succIter 6 (predIter (weekday today) today)))))) ∧
    (∃ res, filter_tasks_by_period tasks "Monthly" today = some res ∧
      ∀ t, t ∈ res ↔ (t ∈ tasks ∧
        ((t.completed = true ∧ ∃ ca cd, t.completed_at = some ca ∧
            ca ≠ "" ∧ fromisoDate ca = some cd ∧ cd.year = today.year ∧
            cd.month = today.month) ∨
          (t.completed = false ∧ ∃ cd, fromisoDate t.timestamp = some cd ∧
            cd.year = today.year ∧ cd.month = today.month)))) ∧
    filter_tasks_by_period tasks "Yearly" today = some tasks := by
  refine ⟨?_, ?_, ?_, ?_⟩
  · obtain ⟨res, hres, hiff⟩ := dailyFilter_spec today tasks hca
    refine ⟨res, ?_, hiff⟩
    unfold filter_tasks_by_period
    rw [if_pos rfl]
    exact hres
  · obtain ⟨res, hres, hiff⟩ := wmFilter_spec (predIter (weekday today) today)
      (succIter 6 (predIter (weekday today) today)) tasks hts hca
    refine ⟨res, ?_, hiff⟩
    unfold filter_tasks_by_period
    rw [if_neg (by decide), if_pos rfl]
    exact hres
  · obtain ⟨res, hres, hiff⟩ := wmFilter_spec ⟨today.year, today.month, 1⟩
      ⟨today.year, today.month, daysInMonth today.year today.month⟩
      tasks hts hca
    refine ⟨res, ?_, ?_⟩
    · unfold filter_tasks_by_period
      rw [if_neg (by decide), if_neg (by decide), if_pos rfl]
      exact hres
    · intro t
      rw [hiff t]
      constructor
      · rintro ⟨h1, h2⟩
        exact ⟨h1, (monthly_window_iff today ht t).mp h2⟩
      · rintro ⟨h1, h2⟩
        exact ⟨h1, (monthly_window_iff today ht t).mpr h2⟩
  · unfold filter_tasks_by_period
    rw [if_neg (by decide), if_neg (by decide), if_neg (by decide)]

theorem c5_witness :
    ((⟨1, 1, 5⟩ : Date).Valid ∧
      (∀ t, t ∈ [(⟨true, some "0001-01-05", "0001-01-01"⟩ : Task)] →
        (fromisoDate t.timestamp).isSome) ∧
      (∀ t, t ∈ [(⟨true, some "0001-01-05", "0001-01-01"⟩ : Task)] →
        t.completed = true → ∀ ca, t.completed_at = some ca → ca ≠ "" →
          (fromisoDate ca).isSome)) ∧
    ((∃ res, filter_tasks_by_period
        [(⟨true, some "0001-01-05", "0001-01-01"⟩ : Task)] "Daily"
          ⟨1, 1, 5⟩ = some res ∧
      ∀ t, t ∈ res ↔ (t ∈ [(⟨true, some "0001-01-05", "0001-01-01"⟩ : Task)] ∧
        t.completed = true ∧ ∃ ca d, t.completed_at = some ca ∧ ca ≠ "" ∧
          fromisoDate ca = some d ∧ d = ⟨1, 1, 5⟩)) ∧
    (∃ res, filter_tasks_by_period
        [(⟨true, some "0001-01-05", "0001-01-01"⟩ : Task)] "Weekly"
          ⟨1, 1, 5⟩ = some res ∧
      ∀ t, t ∈ res ↔ (t ∈ [(⟨true, some "0001-01-05", "0001-01-01"⟩ : Task)] ∧
        ((t.completed = true ∧ ∃ ca cd, t.completed_at = some ca ∧
            ca ≠ "" ∧ fromisoDate ca = some cd ∧
            dateLe (predIter (weekday ⟨1, 1, 5⟩) ⟨1, 1, 5⟩) cd ∧
            dateLe cd (succIter 6 (predIter (weekday ⟨1, 1, 5⟩) ⟨1, 1, 5⟩))) ∨
          (t.completed = false ∧ ∃ cd, fromisoDate t.timestamp = some cd ∧
            dateLe (predIter (weekday ⟨1, 1, 5⟩) ⟨1, 1, 5⟩) cd ∧
            dateLe cd (succIter 6 (predIter (weekday ⟨1, 1, 5⟩) ⟨1, 1, 5⟩)))))) ∧
    (∃ res, filter_tasks_by_period
        [(⟨true, some "0001-01-05", "0001-01-01"⟩ : Task)] "Monthly"
          ⟨1, 1, 5⟩ = some res ∧
      ∀ t, t ∈ res ↔ (t ∈ [(⟨true, some "0001-01-05", "0001-01-01"⟩ : Task)] ∧
        ((t.completed = true ∧ ∃ ca cd, t.completed_at = some ca ∧
            ca ≠ "" ∧ fromisoDate ca = some cd ∧
            cd.year = (⟨1, 1, 5⟩ : Date).year ∧
            cd.month = (⟨1, 1, 5⟩ : Date).month) ∨
          (t.completed = false ∧ ∃ cd, fromisoDate t.timestamp = some cd ∧
            cd.year = (⟨1, 1, 5⟩ : Date).year ∧
            cd.month = (⟨1, 1, 5⟩ : Date).month)))) ∧
    filter_tasks_by_period
      [(⟨true, some "0001-01-05", "0001-01-01"⟩ : Task)] "Yearly"
        ⟨1, 1, 5⟩ = some [(⟨true, some "0001-01-05", "0001-01-01"⟩ : Task)]) :=
  ⟨⟨by decide,
    fun t htm => by
      have hq : t = ⟨true, some "0001-01-05", "0001-01-01"⟩ := by
        simpa using htm
      rw [hq]
      decide,
    fun t htm => by
      have hq : t = ⟨true, some "0001-01-05", "0001-01-01"⟩ := by
        simpa using htm
      rw [hq]
      intro h1 ca h2 h3
      have hca : ca = "0001-01-05" := (Option.some.inj h2).symm
      rw [hca]
      decide⟩,
    c5_amended_filter_rules [(⟨true, some "0001-01-05", "0001-01-01"⟩ : Task)]
      ⟨1, 1, 5⟩ (by decide)
      (fun t htm => by
        have hq : t = ⟨true, some "0001-01-05", "0001-01-01"⟩ := by
          simpa using htm
        rw [hq]
        decide)
      (fun t htm => by
        have hq : t = ⟨true, some "0001-01-05", "0001-01-01"⟩ := by
          simpa using htm
        rw [hq]
        intro h1 ca h2 h3
        have hca : ca = "0001-01-05" := (Option.some.inj h2).symm
        rw [hca]
        decide)⟩

end Pulse
